import Mathlib

/-!
Verification of the SocialGraph service (Go): shallow embedding of the
sharded follow graph (internal/graph/graph.go), the TTL+LRU recommendation
cache (pymk lru file) and the PYMK scoring pipeline (pymk service file),
with theorems checking the documented properties against the embedded code.

Modelling conventions:
* Go `uint64` user ids are modelled as `Nat`; ids are only hashed and
  compared for equality, never involved in wrapping arithmetic.
* Go maps `map[uint64]uint64Set` are modelled as total functions
  `Nat → Finset Nat`; an absent key is the empty set, which is
  observationally identical (the code treats a missing entry as empty and
  deletes entries that become empty).
* Per-user epochs are `Nat`; the uint64 counter only ever grows by 1 per
  successful operation, so wrap-around is unreachable within any run the
  claims quantify over.
* Concurrency is out of scope of the claims settled here: operations are
  embedded as sequential state transformers, matching the per-edge
  atomicity the locks provide.
-/

namespace SG

abbrev UserId := Nat

/-! ## Graph model (internal/graph/graph.go) -/

/-- State of `MemGraph`: the union over all 64 shards of the `following`
and `followers` maps, plus the epoch map.  Sharding by `user_id mod 64`
partitions the key space, so the union of the shard maps is a single map;
the shard structure itself is invisible to the claims. -/
structure MemGraph where
  following : UserId → Finset UserId
  followers : UserId → Finset UserId
  epochs : UserId → Nat

/-- Graph with no edges and all epochs 0 (`NewMemGraph`). -/
def emptyGraph : MemGraph :=
  { following := fun _ => ∅, followers := fun _ => ∅, epochs := fun _ => 0 }

/-- `TouchUsers` body: for each listed user, store `UserEpoch(u)+1`. -/
def touchEpochs : (UserId → Nat) → List UserId → (UserId → Nat)
  | ep, [] => ep
  | ep, u :: rest => touchEpochs (Function.update ep u (ep u + 1)) rest

/-- `MemGraph.TouchUsers`. -/
def TouchUsers (g : MemGraph) (users : List UserId) : MemGraph :=
  { g with epochs := touchEpochs g.epochs users }

/-- `MemGraph.UserEpoch`: the stored counter, 0 when absent. -/
def UserEpoch (g : MemGraph) (u : UserId) : Nat := g.epochs u

/-- `MemGraph.Follow`: reject self edges, reject duplicates, otherwise add
the edge on both adjacency sides and bump both endpoint epochs. -/
def Follow (g : MemGraph) (u v : UserId) : Bool × MemGraph :=
  if u = v then (false, g)
  else if v ∈ g.following u then (false, g)
  else
    (true,
      { following := Function.update g.following u (insert v (g.following u))
        followers := Function.update g.followers v (insert u (g.followers v))
        epochs := touchEpochs g.epochs [u, v] })

/-- `MemGraph.Unfollow`: remove the edge from both sides when present
(bumping both epochs), otherwise report `false` and change nothing. -/
def Unfollow (g : MemGraph) (u v : UserId) : Bool × MemGraph :=
  if v ∈ g.following u then
    (true,
      { following := Function.update g.following u ((g.following u).erase v)
        followers := Function.update g.followers v ((g.followers v).erase u)
        epochs := touchEpochs g.epochs [u, v] })
  else (false, g)

/-- `MemGraph.Following` (the set underlying the returned snapshot slice). -/
def Following (g : MemGraph) (u : UserId) : Finset UserId := g.following u

/-- `MemGraph.Followers`. -/
def Followers (g : MemGraph) (u : UserId) : Finset UserId := g.followers u

/-- `MemGraph.HasEdge`: membership on the `following` side only. -/
def HasEdge (g : MemGraph) (u v : UserId) : Bool := decide (v ∈ g.following u)

/-- `MemGraph.DegreeOut`. -/
def DegreeOut (g : MemGraph) (u : UserId) : Nat := (g.following u).card

/-- `MemGraph.DegreeIn`. -/
def DegreeIn (g : MemGraph) (u : UserId) : Nat := (g.followers u).card

/-- A mutating graph operation, as exposed by the `Store` interface. -/
inductive Op where
  | follow (u v : UserId)
  | unfollow (u v : UserId)
  | touch (users : List UserId)

/-- State transition of one operation (the returned Bool is dropped). -/
def applyOp (g : MemGraph) : Op → MemGraph
  | .follow u v => (Follow g u v).2
  | .unfollow u v => (Unfollow g u v).2
  | .touch us => TouchUsers g us

/-- Sequential execution of a list of operations. -/
def applyOps (g : MemGraph) (ops : List Op) : MemGraph := ops.foldl applyOp g

/-- A state is reachable when some sequence of operations produces it from
the empty graph. -/
def Reachable (g : MemGraph) : Prop := ∃ ops : List Op, applyOps emptyGraph ops = g

/-- Bidirectional adjacency invariant. -/
def Bidir (g : MemGraph) : Prop := ∀ u v, v ∈ g.following u ↔ u ∈ g.followers v

/-- No-self-edge invariant. -/
def NoSelf (g : MemGraph) : Prop := ∀ u, u ∉ g.following u

/-- A run of operations never touches the epoch of user w: every mutation
that succeeds avoids w as an endpoint, and no TouchUsers call lists w. -/
def epochUntouched (w : UserId) : MemGraph → List Op → Prop
  | _, [] => True
  | g, op :: rest =>
      (match op with
       | .follow a b => (Follow g a b).1 = true → a ≠ w ∧ b ≠ w
       | .unfollow a b => (Unfollow g a b).1 = true → a ≠ w ∧ b ≠ w
       | .touch us => w ∉ us) ∧ epochUntouched w (applyOp g op) rest

/-! ## Recommendation cache (pymk lru cache file) -/

/-- One PYMK result row (`pymk.Suggestion`); the nested `why` struct is
flattened into why-prefixed fields.  Go float64 feature values are
modelled as rationals. -/
structure Suggestion where
  userId : UserId
  score : ℚ
  whyCommonNeighbors : Nat
  whyJaccard : ℚ
  whyAdamicAdar : ℚ
  whyCosine : ℚ
deriving DecidableEq, Inhabited

/-- `pymk.cacheKey`: user, (normalized) k, and the epoch at compute time.
Note the exclude set is not part of the key. -/
structure CacheKey where
  user : UserId
  k : Int
  epoch : Nat
deriving DecidableEq

/-- `pymk.cacheEntry`: the key, the cached suggestions, and the absolute
expiry instant (time is modelled as an explicit Nat clock). -/
structure CacheEntry where
  key : CacheKey
  value : List Suggestion
  expiresAt : Nat
deriving DecidableEq

/-- `pymk.lruCache`: the doubly linked recency list and the key table are
modelled as a single front-is-most-recent list of entries (the table is
the set of keys occurring in the list). -/
structure LruCache where
  capacity : Nat
  ttl : Nat
  entries : List CacheEntry
deriving DecidableEq

/-- `pymk.newLRU`. -/
def newLRU (cap ttl : Nat) : LruCache := ⟨cap, ttl, []⟩

/-- Table lookup `c.table[key]`. -/
def lookupEntry (es : List CacheEntry) (key : CacheKey) : Option CacheEntry :=
  es.find? (fun e => decide (e.key = key))

/-- `removeElement`: drop the entry with the given key from the list and
hence from the table. -/
def removeKey (es : List CacheEntry) (key : CacheKey) : List CacheEntry :=
  es.filter (fun e => ! decide (e.key = key))

/-- `lruCache.Get` at the explicit instant `now` (the Go code reads
`time.Now()`): miss when the cache is disabled or the key is absent;
evict and miss when the entry is past expiry (`time.Now().After` is the
strict order); otherwise move to front and hit. -/
def lruGet (c : LruCache) (now : Nat) (key : CacheKey) :
    Option (List Suggestion) × LruCache :=
  if c.capacity = 0 then (none, c)
  else
    match lookupEntry c.entries key with
    | some ent =>
        if ent.expiresAt < now then
          (none, { c with entries := removeKey c.entries key })
        else
          (some ent.value, { c with entries := ent :: removeKey c.entries key })
    | none => (none, c)

/-- `lruCache.Set` at instant `now`: no-op when disabled; replace (and
move to front, refreshing expiry) when present; otherwise push a fresh
entry to the front and, when over capacity, evict the back entry. -/
def lruSet (c : LruCache) (now : Nat) (key : CacheKey) (val : List Suggestion) :
    LruCache :=
  if c.capacity = 0 then c
  else
    match lookupEntry c.entries key with
    | some _ =>
        { c with entries := ⟨key, val, now + c.ttl⟩ :: removeKey c.entries key }
    | none =>
        let es := CacheEntry.mk key val (now + c.ttl) :: c.entries
        if c.capacity < es.length then { c with entries := es.dropLast }
        else { c with entries := es }

/-- The float64 literal 1e-9 used as epsilon by the Go code. -/
def eps9 : ℚ := 1 / 1000000000

/-- `pymk.intersectCount` with capAt = 0 (the only way it is called):
the size of the intersection. -/
def intersectCount (a b : Finset UserId) : Nat := (a ∩ b).card

/-- `pymk.unionSize`, computed exactly as the source does. -/
def unionSize (a b : Finset UserId) : Nat := a.card + b.card - intersectCount a b

/-- Pairwise dot product accumulator used by `pymk.cosine`. -/
def dotQ (a b : List ℚ) : ℚ := (a.zip b).foldl (fun acc p => acc + p.1 * p.2) 0

/-- Rational stand-in for math.Sqrt (see the section comment): exact on
squares of rationals, positive on positive input. -/
def sqrtQ (x : ℚ) : ℚ := (Nat.sqrt (x.num.toNat * x.den) : ℚ) / (x.den : ℚ)

/-- Rational stand-in for math.Log (see the section comment): positive on
arguments greater than 1. -/
def logQ (x : ℚ) : ℚ := (x - 1) / x

/-- `pymk.cosine`: 0 on empty or length-mismatched vectors, 0 on a zero
norm, and the (clamped-at-zero) normalized dot product otherwise. -/
def cosine (a b : List ℚ) : ℚ :=
  if a.length = 0 ∨ a.length ≠ b.length then 0
  else
    let dot := dotQ a b
    let na := dotQ a a
    let nb := dotQ b b
    if na = 0 ∨ nb = 0 then 0
    else
      let res := dot / (sqrtQ na * sqrtQ nb)
      if res < 0 then 0 else res

/-- Adjacency listings: the slices `Following`/`Followers` return, in the
iteration order the Go maps happened to produce, plus the epoch map.
Quantifying over listings quantifies over every possible order. -/
structure GraphListing where
  followingL : UserId → List UserId
  followersL : UserId → List UserId
  epochs : UserId → Nat

/-- Well-formed listings: snapshots of sets carry no duplicates. -/
def GLWF (gv : GraphListing) : Prop :=
  (∀ u, (gv.followingL u).Nodup) ∧ (∀ u, (gv.followersL u).Nodup)

/-- `pymk.PYMKConfig`.  MaxExpandPerNeighbor and MaxCandidates are Go
ints whose only tested property is positivity, so non-positive configured
values coincide with 0. -/
structure PYMKConfig where
  maxExpandPerNeighbor : Nat
  maxCandidates : Nat
  wCommon : ℚ
  wJaccard : ℚ
  wAA : ℚ
  wCosine : ℚ
  cacheSize : Nat
  cacheTTL : Nat

/-- `pymk.candStats`. -/
structure CandStats where
  common : Nat
  aa : ℚ
deriving DecidableEq

/-- The transient `stats` map, with its iteration order made explicit as
the first-insertion order of the keys. -/
structure StatsMap where
  keys : List UserId
  val : UserId → CandStats

def emptyStats : StatsMap := ⟨[], fun _ => ⟨0, 0⟩⟩

/-- One admitted candidate hit: create the entry on first sight, then
increment `common` and accumulate the Adamic-Adar weight. -/
def statsBump (st : StatsMap) (c : UserId) (aaW : ℚ) : StatsMap :=
  { keys := if c ∈ st.keys then st.keys else st.keys ++ [c]
    val := Function.update st.val c ⟨(st.val c).common + 1, (st.val c).aa + aaW⟩ }

/-- The fan-out cap: `neighbors = neighbors[:MaxExpandPerNeighbor]` when
the cap is positive and exceeded. -/
def truncNeighbors (cfg : PYMKConfig) (ns : List UserId) : List UserId :=
  if 0 < cfg.maxExpandPerNeighbor ∧ cfg.maxExpandPerNeighbor < ns.length then
    ns.take cfg.maxExpandPerNeighbor
  else ns

/-- `aaWeight` for a first-hop neighbor n: 1 / log(1 + deg(n) + 1e-9)
when deg(n) is positive, otherwise 0. -/
def aaWeightOf (gv : GraphListing) (n : UserId) : ℚ :=
  let degN := (gv.followingL n).length + (gv.followersL n).length
  if 0 < degN then 1 / logQ ((1 + degN : ℚ) + eps9) else 0

/-- The skip tests inside the expansion loop: candidate must differ from
u, lie outside the one-hop set, and outside the exclude set. -/
def admitCand (u : UserId) (oneHop exclude : Finset UserId) (c : UserId) : Bool :=
  if c = u then false
  else if c ∈ oneHop then false
  else if c ∈ exclude then false
  else true

/-- Inner body of `expand` for one first-hop neighbor n. -/
def expandOne (cfg : PYMKConfig) (gv : GraphListing) (u : UserId)
    (oneHop exclude : Finset UserId) (st : StatsMap) (n : UserId) : StatsMap :=
  let ns := truncNeighbors cfg (gv.followingL n)
  let aaW := aaWeightOf gv n
  ns.foldl (fun acc c => if admitCand u oneHop exclude c then statsBump acc c aaW
                         else acc) st

/-- `expand(outU)` followed by `expand(inU)`.  (The MaxCandidates check in
the source has an empty body and therefore no effect.) -/
def expandAll (cfg : PYMKConfig) (gv : GraphListing) (u : UserId)
    (oneHop exclude : Finset UserId) : StatsMap :=
  (gv.followersL u).foldl (expandOne cfg gv u oneHop exclude)
    ((gv.followingL u).foldl (expandOne cfg gv u oneHop exclude) emptyStats)

/-- `pymk.scored`. -/
structure scored where
  id : UserId
  common : Nat
  jaccard : ℚ
  aa : ℚ
  cos : ℚ
  score : ℚ
deriving DecidableEq, Inhabited

/-- Feature-completion loop: jaccard over outgoing sets (with the 1e-9
denominator guard as in the source) and the per-candidate cosine. -/
def rawScored (gv : GraphListing) (emb : UserId → Option (List ℚ)) (u : UserId)
    (st : StatsMap) : List scored :=
  let outUset := (gv.followingL u).toFinset
  let degU := outUset.card
  st.keys.map (fun id =>
    let outC := (gv.followingL id).toFinset
    let jacc : ℚ :=
      if 0 < degU ∨ 0 < outC.card then
        (intersectCount outUset outC : ℚ) / ((unionSize outUset outC : ℚ) + eps9)
      else 0
    let cos : ℚ :=
      match emb u with
      | some va =>
          match emb id with
          | some vb => cosine va vb
          | none => 0
      | none => 0
    { id := id, common := (st.val id).common, jaccard := jacc,
      aa := (st.val id).aa, cos := cos, score := 0 })

/-- Per-request maximum of the common counter (0 when empty). -/
def maxCommonOf (l : List scored) : Nat := l.foldl (fun m s => max m s.common) 0

/-- Per-request maximum of a rational feature (0 when empty). -/
def maxQOf (f : scored → ℚ) (l : List scored) : ℚ :=
  l.foldl (fun m s => max m (f s)) 0

/-- Min-max normalization with the minimum anchored at 0: divide by the
maximum when it is positive, else 0. -/
def normalize (x mx : ℚ) : ℚ := if 0 < mx then x / mx else 0

/-- Weighted scoring pass over the candidate list. -/
def applyScores (cfg : PYMKConfig) (l : List scored) : List scored :=
  let maxCommon := maxCommonOf l
  let maxJ := maxQOf (fun s => s.jaccard) l
  let maxA := maxQOf (fun s => s.aa) l
  let maxC := maxQOf (fun s => s.cos) l
  l.map (fun s =>
    { s with score :=
        cfg.wCommon * normalize (s.common : ℚ) (maxCommon : ℚ) +
        cfg.wJaccard * normalize s.jaccard maxJ +
        cfg.wAA * normalize s.aa maxA +
        cfg.wCosine * normalize s.cos maxC })

/-! Min-heap (`pymk.minHeap` driven by container/heap).  The element array
is a list indexed from the root at 0; sift loops carry explicit fuel that
always dominates the number of iterations. -/

def sGetD (l : List scored) (i : Nat) : scored := l.getD i default

def sSwap (l : List scored) (i j : Nat) : List scored :=
  (l.set i (sGetD l j)).set j (sGetD l i)

/-- container/heap `up`. -/
def siftUp : List scored → Nat → Nat → List scored
  | l, _, 0 => l
  | l, j, fuel+1 =>
    if j = 0 then l
    else
      let i := (j - 1) / 2
      if (sGetD l j).score < (sGetD l i).score then siftUp (sSwap l i j) i fuel
      else l

/-- container/heap `down` with boundary n. -/
def siftDown (n : Nat) : List scored → Nat → Nat → List scored
  | l, _, 0 => l
  | l, i, fuel+1 =>
    if n ≤ 2 * i + 1 then l
    else
      let j1 := 2 * i + 1
      let j := if 2 * i + 2 < n ∧ (sGetD l (2 * i + 2)).score < (sGetD l j1).score
               then 2 * i + 2 else j1
      if (sGetD l j).score < (sGetD l i).score then siftDown n (sSwap l i j) j fuel
      else l

/-- `heap.Push`: append then sift up from the last slot. -/
def hpush (l : List scored) (x : scored) : List scored :=
  siftUp (l ++ [x]) l.length (l.length + 1)

/-- `heap.Pop`: swap root and last, sift the root down over the shortened
prefix, and return the parked old root together with the remaining heap. -/
def hpop (l : List scored) : scored × List scored :=
  let n := l.length - 1
  let l2 := siftDown n (sSwap l 0 n) 0 (n + 1)
  (sGetD l2 n, l2.take n)

/-- One iteration of the Top-K selection loop: push while below k,
otherwise replace the minimum when the new score is strictly larger. -/
def topStep (k : Nat) (h : List scored) (s : scored) : List scored :=
  if h.length < k then hpush h s
  else if (sGetD h 0).score < s.score then hpush (hpop h).2 s
  else h

/-- The Top-K selection loop over the scored candidates. -/
def topKHeap (k : Nat) (l : List scored) : List scored :=
  l.foldl (topStep k) []

/-- Build the suggestion row from a popped scored record. -/
def toSuggestion (s : scored) : Suggestion :=
  ⟨s.id, s.score, s.common, s.jaccard, s.aa, s.cos⟩

/-- Emission loop: repeatedly pop the minimum, filling the result from the
back, which yields descending scores from the front. -/
def drainHeap : Nat → List scored → List Suggestion → List Suggestion
  | 0, _, acc => acc
  | m+1, h, acc => drainHeap m (hpop h).2 (toSuggestion (hpop h).1 :: acc)

def emitTopK (k : Nat) (l : List scored) : List Suggestion :=
  drainHeap (topKHeap k l).length (topKHeap k l) []

/-- The compute path of `Service.PYMK` (everything after a cache miss,
before the cache store), for an already-normalized k. -/
def PYMKcompute (cfg : PYMKConfig) (gv : GraphListing)
    (emb : UserId → Option (List ℚ)) (u : UserId) (kN : Nat)
    (exclude : Finset UserId) : List Suggestion :=
  let oneHop := (gv.followingL u).toFinset ∪ (gv.followersL u).toFinset
  let st := expandAll cfg gv u oneHop exclude
  if st.keys = [] then []
  else emitTopK kN (applyScores cfg (rawScored gv emb u st))

/-- Mutable state seen by `Service.PYMK`: the graph, the embedding store,
and the recommendation cache. -/
structure SvcState where
  gv : GraphListing
  emb : UserId → Option (List ℚ)
  cache : LruCache

/-- `Service.PYMK` at explicit instant `now`: normalize k, probe the
cache under (u, k, epoch), return the cached list on a hit, otherwise
compute, store and return. -/
def ServicePYMK (cfg : PYMKConfig) (st : SvcState) (now : Nat) (u : UserId)
    (k : Int) (exclude : Finset UserId) : List Suggestion × SvcState :=
  let kN : Nat := if k ≤ 0 then 20 else k.toNat
  let key : CacheKey := ⟨u, (kN : Int), st.gv.epochs u⟩
  match lruGet st.cache now key with
  | (some got, c1) => (got, { st with cache := c1 })
  | (none, c1) =>
      let res := PYMKcompute cfg st.gv st.emb u kN exclude
      (res, { st with cache := lruSet c1 now key res })

/-- The binary min-heap invariant on the prefix of length n: every
non-root slot is at least its parent (container/heap with Less being the
strict order on scores maintains exactly this). -/
def IsHeapN (l : List scored) (n : Nat) : Prop :=
  ∀ j, 0 < j → j < n → (sGetD l ((j - 1) / 2)).score ≤ (sGetD l j).score

/-- Invariant carried by the sift-up loop at cursor j: the heap relation
holds everywhere except possibly at j, and the children of j dominate the
parent of j. -/
def UpInv (l : List scored) (n j : Nat) : Prop :=
  (∀ c, 0 < c → c < n → c ≠ j →
    (sGetD l ((c - 1) / 2)).score ≤ (sGetD l c).score) ∧
  (0 < j → ∀ c, c < n → (c - 1) / 2 = j →
    (sGetD l ((j - 1) / 2)).score ≤ (sGetD l c).score)

/-- Invariant carried by the sift-down loop at cursor i with boundary n:
the heap relation holds except possibly below i, and the children of i
dominate the parent of i. -/
def DownInv (l : List scored) (n i : Nat) : Prop :=
  (∀ c, 0 < c → c < n → (c - 1) / 2 ≠ i →
    (sGetD l ((c - 1) / 2)).score ≤ (sGetD l c).score) ∧
  (0 < i → ∀ c, c < n → (c - 1) / 2 = i →
    (sGetD l ((i - 1) / 2)).score ≤ (sGetD l c).score)

/-- Loop invariant of the Top-K fold: the accumulator is a heap holding
min(k, seen) elements, and everything seen splits into the heap plus a
rejected remainder, each rejected element at most every heap element. -/
def TopInv (k : Nat) (seen h : List scored) : Prop :=
  IsHeapN h h.length ∧ h.length = min k seen.length ∧
  ∃ rej : Multiset scored, (↑seen : Multiset scored) = ↑h + rej ∧
    ∀ x ∈ rej, ∀ y ∈ h, x.score ≤ y.score

/-! Concrete instances used by counterexamples and witnesses. -/

/-- Listing of the spec scenario graph with edges 1 to 2, 1 to 3, 2 to 4,
3 to 4 (the triangle common-neighbor scenario). -/
def triGL : GraphListing :=
  { followingL := fun u =>
      if u = 1 then [2, 3] else if u = 2 then [4] else if u = 3 then [4] else []
    followersL := fun u =>
      if u = 2 then [1] else if u = 3 then [1] else if u = 4 then [2, 3] else []
    epochs := fun _ => 0 }

/-- Listing with the mutual pair 1 and 2 plus the edge 2 to 4. -/
def mutGL : GraphListing :=
  { followingL := fun u => if u = 1 then [2] else if u = 2 then [1, 4] else []
    followersL := fun u =>
      if u = 1 then [2] else if u = 2 then [1] else if u = 4 then [2] else []
    epochs := fun _ => 0 }

/-- The configuration the process entry point uses. -/
def mainCfg : PYMKConfig := PYMKConfig.mk 200 20000 1 (3 / 5) (4 / 5) 1 100000 120

/-- Empty embedding store. -/
def noEmb : UserId → Option (List ℚ) := fun _ => none

/-- Fresh service state over the triangle graph. -/
def triState : SvcState :=
  SvcState.mk triGL noEmb (newLRU mainCfg.cacheSize mainCfg.cacheTTL)

/-- The number of distinct first-hop neighbors of u through whose
(possibly fan-out-truncated) following list candidate c is reached, as
the claim words it. -/
def distinctIntermediaries (cfg : PYMKConfig) (gv : GraphListing)
    (u c : UserId) : Nat :=
  (((gv.followingL u).toFinset ∪ (gv.followersL u).toFinset).filter
    (fun n => c ∈ truncNeighbors cfg (gv.followingL n))).card

/-- The scored candidate list of a PYMK computation (the `out` slice
after the weighted-scoring pass). -/
def pymkRaw (cfg : PYMKConfig) (gv : GraphListing)
    (emb : UserId → Option (List ℚ)) (u : UserId)
    (exclude : Finset UserId) : List scored :=
  rawScored gv emb u (expandAll cfg gv u
    ((gv.followingL u).toFinset ∪ (gv.followersL u).toFinset) exclude)

def pymkCands (cfg : PYMKConfig) (gv : GraphListing)
    (emb : UserId → Option (List ℚ)) (u : UserId)
    (exclude : Finset UserId) : List scored :=
  applyScores cfg (pymkRaw cfg gv emb u exclude)

/-! ## Theorems -/

theorem bidir_empty : Bidir emptyGraph := by
  intro u v
  simp [emptyGraph]

theorem noSelf_empty : NoSelf emptyGraph := by
  intro u
  simp [emptyGraph]

theorem follow_snd_self {g : MemGraph} {u v : UserId} (huv : u = v) :
    (Follow g u v).2 = g := by
  simp [Follow, huv]

theorem follow_snd_dup {g : MemGraph} {u v : UserId} (huv : u ≠ v)
    (hmem : v ∈ g.following u) : (Follow g u v).2 = g := by
  simp [Follow, huv, hmem]

theorem follow_snd_new {g : MemGraph} {u v : UserId} (huv : u ≠ v)
    (hmem : v ∉ g.following u) :
    (Follow g u v).2 =
      { following := Function.update g.following u (insert v (g.following u))
        followers := Function.update g.followers v (insert u (g.followers v))
        epochs := touchEpochs g.epochs [u, v] } := by
  simp [Follow, huv, hmem]

theorem unfollow_snd_absent {g : MemGraph} {u v : UserId}
    (hmem : v ∉ g.following u) : (Unfollow g u v).2 = g := by
  simp [Unfollow, hmem]

theorem unfollow_snd_present {g : MemGraph} {u v : UserId}
    (hmem : v ∈ g.following u) :
    (Unfollow g u v).2 =
      { following := Function.update g.following u ((g.following u).erase v)
        followers := Function.update g.followers v ((g.followers v).erase u)
        epochs := touchEpochs g.epochs [u, v] } := by
  simp [Unfollow, hmem]

theorem bidir_follow {g : MemGraph} (hg : Bidir g) (u v : UserId) :
    Bidir (Follow g u v).2 := by
  by_cases huv : u = v
  · rw [follow_snd_self huv]; exact hg
  · by_cases hmem : v ∈ g.following u
    · rw [follow_snd_dup huv hmem]; exact hg
    · rw [follow_snd_new huv hmem]
      intro a b
      by_cases hau : a = u <;> by_cases hbv : b = v
      · subst hau; subst hbv
        simp [Function.update_same]
      · subst hau
        simp only [Function.update_same, Function.update_noteq hbv,
          Finset.mem_insert]
        rw [hg a b]
        tauto
      · subst hbv
        simp only [Function.update_noteq hau, Function.update_same,
          Finset.mem_insert]
        rw [hg a b]
        tauto
      · simp only [Function.update_noteq hau, Function.update_noteq hbv]
        exact hg a b

theorem noSelf_follow {g : MemGraph} (hg : NoSelf g) (u v : UserId) :
    NoSelf (Follow g u v).2 := by
  by_cases huv : u = v
  · rw [follow_snd_self huv]; exact hg
  · by_cases hmem : v ∈ g.following u
    · rw [follow_snd_dup huv hmem]; exact hg
    · rw [follow_snd_new huv hmem]
      intro a
      by_cases hau : a = u
      · subst hau
        simp only [Function.update_same, Finset.mem_insert]
        rintro (h | h)
        · exact huv h
        · exact hg a h
      · simp only [Function.update_noteq hau]
        exact hg a

theorem bidir_unfollow {g : MemGraph} (hg : Bidir g) (u v : UserId) :
    Bidir (Unfollow g u v).2 := by
  by_cases hmem : v ∈ g.following u
  · rw [unfollow_snd_present hmem]
    intro a b
    by_cases hau : a = u <;> by_cases hbv : b = v
    · subst hau; subst hbv
      simp only [Function.update_same, Finset.mem_erase]
      rw [hg a b]
      tauto
    · subst hau
      simp only [Function.update_same, Function.update_noteq hbv,
        Finset.mem_erase]
      rw [hg a b]
      tauto
    · subst hbv
      simp only [Function.update_noteq hau, Function.update_same,
        Finset.mem_erase]
      rw [hg a b]
      tauto
    · simp only [Function.update_noteq hau, Function.update_noteq hbv]
      exact hg a b
  · rw [unfollow_snd_absent hmem]; exact hg

theorem noSelf_unfollow {g : MemGraph} (hg : NoSelf g) (u v : UserId) :
    NoSelf (Unfollow g u v).2 := by
  by_cases hmem : v ∈ g.following u
  · rw [unfollow_snd_present hmem]
    intro a
    by_cases hau : a = u
    · subst hau
      simp only [Function.update_same, Finset.mem_erase]
      intro h
      exact hg a h.2
    · simp only [Function.update_noteq hau]
      exact hg a
  · rw [unfollow_snd_absent hmem]; exact hg

theorem bidir_applyOp {g : MemGraph} (hg : Bidir g) (op : Op) :
    Bidir (applyOp g op) := by
  cases op with
  | follow u v => exact bidir_follow hg u v
  | unfollow u v => exact bidir_unfollow hg u v
  | touch us => exact hg

theorem noSelf_applyOp {g : MemGraph} (hg : NoSelf g) (op : Op) :
    NoSelf (applyOp g op) := by
  cases op with
  | follow u v => exact noSelf_follow hg u v
  | unfollow u v => exact noSelf_unfollow hg u v
  | touch us => exact hg

theorem bidir_applyOps {g : MemGraph} (hg : Bidir g) (ops : List Op) :
    Bidir (applyOps g ops) := by
  induction ops generalizing g with
  | nil => exact hg
  | cons op rest ih => exact ih (bidir_applyOp hg op)

theorem noSelf_applyOps {g : MemGraph} (hg : NoSelf g) (ops : List Op) :
    NoSelf (applyOps g ops) := by
  induction ops generalizing g with
  | nil => exact hg
  | cons op rest ih => exact ih (noSelf_applyOp hg op)

theorem reachable_bidir {g : MemGraph} (hg : Reachable g) : Bidir g := by
  obtain ⟨ops, rfl⟩ := hg
  exact bidir_applyOps bidir_empty ops

theorem reachable_noSelf {g : MemGraph} (hg : Reachable g) : NoSelf g := by
  obtain ⟨ops, rfl⟩ := hg
  exact noSelf_applyOps noSelf_empty ops

theorem touchEpochs_ge (ep : UserId → Nat) (l : List UserId) (x : UserId) :
    ep x ≤ touchEpochs ep l x := by
  induction l generalizing ep with
  | nil => exact le_refl _
  | cons u rest ih =>
      refine le_trans ?_ (ih (Function.update ep u (ep u + 1)))
      by_cases hx : x = u
      · subst hx; simp
      · simp [Function.update_noteq hx]

theorem touchEpochs_notMem (ep : UserId → Nat) (l : List UserId) (x : UserId)
    (hx : x ∉ l) : touchEpochs ep l x = ep x := by
  induction l generalizing ep with
  | nil => rfl
  | cons u rest ih =>
      have hxu : x ≠ u := fun h => hx (h ▸ List.mem_cons_self u rest)
      have hxr : x ∉ rest := fun h => hx (List.mem_cons_of_mem u h)
      rw [touchEpochs, ih _ hxr, Function.update_noteq hxu]

theorem touchEpochs_pair_left (ep : UserId → Nat) {u v : UserId} (huv : u ≠ v) :
    touchEpochs ep [u, v] u = ep u + 1 := by
  show Function.update (Function.update ep u (ep u + 1)) v
      (Function.update ep u (ep u + 1) v + 1) u = ep u + 1
  rw [Function.update_noteq huv, Function.update_same]

theorem touchEpochs_pair_right (ep : UserId → Nat) {u v : UserId} (huv : u ≠ v) :
    touchEpochs ep [u, v] v = ep v + 1 := by
  show Function.update (Function.update ep u (ep u + 1)) v
      (Function.update ep u (ep u + 1) v + 1) v = ep v + 1
  rw [Function.update_same, Function.update_noteq (Ne.symm huv)]

theorem follow_fst_iff (g : MemGraph) (u v : UserId) :
    (Follow g u v).1 = true ↔ (u ≠ v ∧ v ∉ g.following u) := by
  by_cases huv : u = v
  · simp [Follow, huv]
  · by_cases hmem : v ∈ g.following u <;> simp [Follow, huv, hmem]

theorem follow_false_snd {g : MemGraph} {u v : UserId}
    (h : (Follow g u v).1 = false) : (Follow g u v).2 = g := by
  by_cases huv : u = v
  · exact follow_snd_self huv
  · by_cases hmem : v ∈ g.following u
    · exact follow_snd_dup huv hmem
    · exfalso
      have : (Follow g u v).1 = true := (follow_fst_iff g u v).2 ⟨huv, hmem⟩
      rw [h] at this
      exact Bool.false_ne_true this

theorem unfollow_fst_iff (g : MemGraph) (u v : UserId) :
    (Unfollow g u v).1 = true ↔ v ∈ g.following u := by
  by_cases hmem : v ∈ g.following u <;> simp [Unfollow, hmem]

theorem unfollow_false_snd {g : MemGraph} {u v : UserId}
    (h : (Unfollow g u v).1 = false) : (Unfollow g u v).2 = g := by
  by_cases hmem : v ∈ g.following u
  · exfalso
    have : (Unfollow g u v).1 = true := (unfollow_fst_iff g u v).2 hmem
    rw [h] at this
    exact Bool.false_ne_true this
  · exact unfollow_snd_absent hmem

theorem follow_success_epochs {g : MemGraph} {u v : UserId}
    (h : (Follow g u v).1 = true) :
    (Follow g u v).2.epochs u = g.epochs u + 1 ∧
    (Follow g u v).2.epochs v = g.epochs v + 1 := by
  obtain ⟨huv, hmem⟩ := (follow_fst_iff g u v).1 h
  rw [follow_snd_new huv hmem]
  exact ⟨touchEpochs_pair_left g.epochs huv, touchEpochs_pair_right g.epochs huv⟩

theorem unfollow_success_epochs {g : MemGraph} {u v : UserId} (hns : NoSelf g)
    (h : (Unfollow g u v).1 = true) :
    (Unfollow g u v).2.epochs u = g.epochs u + 1 ∧
    (Unfollow g u v).2.epochs v = g.epochs v + 1 := by
  have hmem := (unfollow_fst_iff g u v).1 h
  have huv : u ≠ v := by
    intro he
    exact hns u (he ▸ hmem)
  rw [unfollow_snd_present hmem]
  exact ⟨touchEpochs_pair_left g.epochs huv, touchEpochs_pair_right g.epochs huv⟩

theorem epochs_applyOp_ge (g : MemGraph) (op : Op) (x : UserId) :
    g.epochs x ≤ (applyOp g op).epochs x := by
  cases op with
  | follow u v =>
      show g.epochs x ≤ (Follow g u v).2.epochs x
      by_cases huv : u = v
      · rw [follow_snd_self huv]
      · by_cases hmem : v ∈ g.following u
        · rw [follow_snd_dup huv hmem]
        · rw [follow_snd_new huv hmem]
          exact touchEpochs_ge g.epochs [u, v] x
  | unfollow u v =>
      show g.epochs x ≤ (Unfollow g u v).2.epochs x
      by_cases hmem : v ∈ g.following u
      · rw [unfollow_snd_present hmem]
        exact touchEpochs_ge g.epochs [u, v] x
      · rw [unfollow_snd_absent hmem]
  | touch us => exact touchEpochs_ge g.epochs us x

theorem epochs_applyOps_ge (g : MemGraph) (ops : List Op) (x : UserId) :
    g.epochs x ≤ (applyOps g ops).epochs x := by
  induction ops generalizing g with
  | nil => exact le_refl _
  | cons op rest ih =>
      exact le_trans (epochs_applyOp_ge g op x) (ih (applyOp g op))

theorem epochUntouched_eq {w : UserId} {g : MemGraph} {ops : List Op}
    (h : epochUntouched w g ops) : (applyOps g ops).epochs w = g.epochs w := by
  induction ops generalizing g with
  | nil => rfl
  | cons op rest ih =>
      obtain ⟨hop, hrest⟩ := h
      have hstep : (applyOp g op).epochs w = g.epochs w := by
        cases op with
        | follow a b =>
            show (Follow g a b).2.epochs w = g.epochs w
            by_cases hs : (Follow g a b).1 = true
            · obtain ⟨ha, hb⟩ := hop hs
              obtain ⟨hab, hmem⟩ := (follow_fst_iff g a b).1 hs
              rw [follow_snd_new hab hmem]
              refine touchEpochs_notMem g.epochs [a, b] w ?_
              intro hw
              rcases List.mem_cons.1 hw with h1 | h1
              · exact ha h1.symm
              · rcases List.mem_cons.1 h1 with h2 | h2
                · exact hb h2.symm
                · exact absurd h2 (List.not_mem_nil w)
            · rw [follow_false_snd (Bool.eq_false_iff.2 hs)]
        | unfollow a b =>
            show (Unfollow g a b).2.epochs w = g.epochs w
            by_cases hs : (Unfollow g a b).1 = true
            · obtain ⟨ha, hb⟩ := hop hs
              have hmem := (unfollow_fst_iff g a b).1 hs
              rw [unfollow_snd_present hmem]
              refine touchEpochs_notMem g.epochs [a, b] w ?_
              intro hw
              rcases List.mem_cons.1 hw with h1 | h1
              · exact ha h1.symm
              · rcases List.mem_cons.1 h1 with h2 | h2
                · exact hb h2.symm
                · exact absurd h2 (List.not_mem_nil w)
            · rw [unfollow_false_snd (Bool.eq_false_iff.2 hs)]
        | touch us => exact touchEpochs_notMem g.epochs us w hop
      rw [applyOps, List.foldl_cons]
      show (applyOps (applyOp g op) rest).epochs w = g.epochs w
      rw [ih hrest, hstep]

/-- C4: epoch counter semantics.  UserEpoch(w) is 0 after any run from the
empty graph in which w is never an endpoint of a successful mutation nor
listed in a TouchUsers call; a successful Follow or Unfollow increments
both endpoint epochs by exactly one; epochs never decrease along any
sequential run; and operations returning false leave every epoch
unchanged. -/
theorem C4_epoch_semantics (g : MemGraph) (hg : Reachable g) (u v w : UserId)
    (ops : List Op) :
    (epochUntouched w emptyGraph ops → UserEpoch (applyOps emptyGraph ops) w = 0) ∧
    ((Follow g u v).1 = true →
      UserEpoch (Follow g u v).2 u = UserEpoch g u + 1 ∧
      UserEpoch (Follow g u v).2 v = UserEpoch g v + 1) ∧
    ((Unfollow g u v).1 = true →
      UserEpoch (Unfollow g u v).2 u = UserEpoch g u + 1 ∧
      UserEpoch (Unfollow g u v).2 v = UserEpoch g v + 1) ∧
    (UserEpoch g w ≤ UserEpoch (applyOps g ops) w) ∧
    ((Follow g u v).1 = false → ∀ x, UserEpoch (Follow g u v).2 x = UserEpoch g x) ∧
    ((Unfollow g u v).1 = false → ∀ x, UserEpoch (Unfollow g u v).2 x = UserEpoch g x) := by
  refine ⟨?_, ?_, ?_, ?_, ?_, ?_⟩
  · intro h
    exact epochUntouched_eq h
  · exact follow_success_epochs
  · exact unfollow_success_epochs (reachable_noSelf hg)
  · exact epochs_applyOps_ge g ops w
  · intro h x
    rw [UserEpoch, UserEpoch, follow_false_snd h]
  · intro h x
    rw [UserEpoch, UserEpoch, unfollow_false_snd h]

/-- Witness for C4 at a concrete reachable graph and run. -/
theorem C4_witness :
    UserEpoch (applyOps emptyGraph [Op.follow 1 2, Op.follow 1 2]) 5 = 0 ∧
    UserEpoch (Follow (applyOps emptyGraph [Op.follow 1 2, Op.follow 1 2]) 2 3).2 2 =
      UserEpoch (applyOps emptyGraph [Op.follow 1 2, Op.follow 1 2]) 2 + 1 ∧
    UserEpoch (applyOps emptyGraph [Op.follow 1 2, Op.follow 1 2]) 5 ≤
      UserEpoch (applyOps (applyOps emptyGraph [Op.follow 1 2, Op.follow 1 2])
        [Op.touch [5]]) 5 := by
  have h1 := C4_epoch_semantics (applyOps emptyGraph [Op.follow 1 2, Op.follow 1 2])
    ⟨[Op.follow 1 2, Op.follow 1 2], rfl⟩ 2 3 5 [Op.follow 1 2, Op.follow 1 2]
  have h2 := C4_epoch_semantics (applyOps emptyGraph [Op.follow 1 2, Op.follow 1 2])
    ⟨[Op.follow 1 2, Op.follow 1 2], rfl⟩ 2 3 5 [Op.touch [5]]
  refine ⟨?_, ?_, ?_⟩
  · refine h1.1 ?_
    refine ⟨?_, ?_, trivial⟩
    · intro _
      exact ⟨by decide, by decide⟩
    · intro _
      exact ⟨by decide, by decide⟩
  · exact (h2.2.1 (by decide)).1
  · exact h2.2.2.2.1

/-- C1: in every graph state reachable by Follow and Unfollow operations
from the empty graph, for every pair of users, v is in following(u) iff
u is in followers(v); equivalently HasEdge(u,v) agrees with membership of
u in Followers(v). -/
theorem C1_bidirectional_adjacency (g : MemGraph) (hg : Reachable g) (u v : UserId) :
    (v ∈ Following g u ↔ u ∈ Followers g v) ∧
    (HasEdge g u v = true ↔ u ∈ Followers g v) := by
  have h := reachable_bidir hg u v
  constructor
  · exact h
  · rw [HasEdge, decide_eq_true_eq]
    exact h

/-- Witness for C1 at a concrete reachable state. -/
theorem C1_witness :
    (2 ∈ Following (applyOps emptyGraph [Op.follow 1 2, Op.follow 3 1, Op.unfollow 3 1]) 1 ↔
      1 ∈ Followers (applyOps emptyGraph [Op.follow 1 2, Op.follow 3 1, Op.unfollow 3 1]) 2) ∧
    (HasEdge (applyOps emptyGraph [Op.follow 1 2, Op.follow 3 1, Op.unfollow 3 1]) 1 2 = true ↔
      1 ∈ Followers (applyOps emptyGraph [Op.follow 1 2, Op.follow 3 1, Op.unfollow 3 1]) 2) :=
  C1_bidirectional_adjacency _ ⟨[Op.follow 1 2, Op.follow 3 1, Op.unfollow 3 1], rfl⟩ 1 2

/-- C5: Follow returns true iff the pair is distinct and the edge was
absent; any false return leaves the whole state (adjacency, degrees,
epochs) exactly as before.  The embedded Follow is a total function, so
there is no error path. -/
theorem C5_follow_contract (g : MemGraph) (u v : UserId) :
    ((Follow g u v).1 = true ↔ (u ≠ v ∧ v ∉ Following g u)) ∧
    ((Follow g u v).1 = false → (Follow g u v).2 = g) := by
  unfold Follow Following
  by_cases huv : u = v
  · simp [huv]
  · by_cases hmem : v ∈ g.following u
    · simp [huv, hmem]
    · simp [huv, hmem]

/-- Witness for C5: a duplicate Follow reports false, a fresh one true. -/
theorem C5_witness :
    ((Follow emptyGraph 1 2).1 = true ↔ (1 ≠ 2 ∧ 2 ∉ Following emptyGraph 1)) ∧
    ((Follow emptyGraph 1 2).1 = false → (Follow emptyGraph 1 2).2 = emptyGraph) :=
  C5_follow_contract emptyGraph 1 2

/-- Counterexample to C6 as stated: the claim quantifies over every pair
with HasEdge(u,v) false, but for u = v the first Follow call returns
false, not true.  At the reachable empty graph and the pair (0,0),
HasEdge is false yet Follow(0,0) reports false. -/
theorem C6_counterexample :
    Reachable emptyGraph ∧ HasEdge emptyGraph 0 0 = false ∧
    (Follow emptyGraph 0 0).1 = false :=
  ⟨⟨[], rfl⟩, by decide, by decide⟩

/-- C6 (amended: the pair must be distinct, as Follow silently rejects
self edges): in every reachable state where HasEdge(u,v) is false and
u differs from v, Follow(u,v) then Unfollow(u,v) both return true,
afterwards HasEdge(u,v) is false, and every DegreeOut and DegreeIn is
exactly its value before the pair of calls.  (Dropping emptied adjacency
entries rather than keeping empty sets is invisible to the embedded
state, which reads absent entries as empty sets.) -/
theorem C6_unfollow_inverts_follow (g : MemGraph) (hg : Reachable g)
    (u v : UserId) (huv : u ≠ v) (hedge : HasEdge g u v = false) :
    (Follow g u v).1 = true ∧
    (Unfollow (Follow g u v).2 u v).1 = true ∧
    HasEdge (Unfollow (Follow g u v).2 u v).2 u v = false ∧
    ∀ w, DegreeOut (Unfollow (Follow g u v).2 u v).2 w = DegreeOut g w ∧
         DegreeIn (Unfollow (Follow g u v).2 u v).2 w = DegreeIn g w := by
  have hmem : v ∉ g.following u := by
    intro h
    rw [HasEdge] at hedge
    simp [h] at hedge
  have hfol : u ∉ g.followers v := fun h => hmem ((reachable_bidir hg u v).2 h)
  have h1 : (Follow g u v).1 = true := (follow_fst_iff g u v).2 ⟨huv, hmem⟩
  set g1 := (Follow g u v).2 with hg1
  have hgf : g1.following = Function.update g.following u (insert v (g.following u)) := by
    rw [hg1, follow_snd_new huv hmem]
  have hgr : g1.followers = Function.update g.followers v (insert u (g.followers v)) := by
    rw [hg1, follow_snd_new huv hmem]
  have hmem1 : v ∈ g1.following u := by
    rw [hgf, Function.update_same]
    exact Finset.mem_insert_self v _
  have h2 : (Unfollow g1 u v).1 = true := (unfollow_fst_iff g1 u v).2 hmem1
  have h2f : (Unfollow g1 u v).2.following =
      Function.update g1.following u ((g1.following u).erase v) := by
    rw [unfollow_snd_present hmem1]
  have h2r : (Unfollow g1 u v).2.followers =
      Function.update g1.followers v ((g1.followers v).erase u) := by
    rw [unfollow_snd_present hmem1]
  have hfol2 : (Unfollow g1 u v).2.following = g.following := by
    rw [h2f, hgf]
    funext x
    by_cases hx : x = u
    · subst hx
      rw [Function.update_same, Function.update_same, Finset.erase_insert hmem]
    · rw [Function.update_noteq hx, Function.update_noteq hx]
  have hflw2 : (Unfollow g1 u v).2.followers = g.followers := by
    rw [h2r, hgr]
    funext x
    by_cases hx : x = v
    · subst hx
      rw [Function.update_same, Function.update_same, Finset.erase_insert hfol]
    · rw [Function.update_noteq hx, Function.update_noteq hx]
  refine ⟨h1, h2, ?_, ?_⟩
  · rw [HasEdge, hfol2]
    simp [hmem]
  · intro w
    rw [DegreeOut, DegreeIn, DegreeOut, DegreeIn, hfol2, hflw2]
    exact ⟨rfl, rfl⟩

/-- Witness for C6 at a concrete reachable state. -/
theorem C6_witness :
    (Follow (applyOps emptyGraph [Op.follow 1 2]) 2 3).1 = true ∧
    (Unfollow (Follow (applyOps emptyGraph [Op.follow 1 2]) 2 3).2 2 3).1 = true ∧
    HasEdge (Unfollow (Follow (applyOps emptyGraph [Op.follow 1 2]) 2 3).2 2 3).2 2 3 = false ∧
    ∀ w, DegreeOut (Unfollow (Follow (applyOps emptyGraph [Op.follow 1 2]) 2 3).2 2 3).2 w =
           DegreeOut (applyOps emptyGraph [Op.follow 1 2]) w ∧
         DegreeIn (Unfollow (Follow (applyOps emptyGraph [Op.follow 1 2]) 2 3).2 2 3).2 w =
           DegreeIn (applyOps emptyGraph [Op.follow 1 2]) w :=
  C6_unfollow_inverts_follow (applyOps emptyGraph [Op.follow 1 2])
    ⟨[Op.follow 1 2], rfl⟩ 2 3 (by decide) (by decide)

theorem lookupEntry_cons_self (key : CacheKey) (v : List Suggestion) (t : Nat)
    (es : List CacheEntry) :
    lookupEntry (CacheEntry.mk key v t :: es) key = some (CacheEntry.mk key v t) := by
  simp [lookupEntry]

theorem lruSet_replace {c : LruCache} {key : CacheKey} {ent : CacheEntry}
    (hcap : c.capacity ≠ 0) (hl : lookupEntry c.entries key = some ent)
    (t0 : Nat) (v : List Suggestion) :
    lruSet c t0 key v =
      { c with entries := CacheEntry.mk key v (t0 + c.ttl) :: removeKey c.entries key } := by
  rw [lruSet, if_neg hcap, hl]

theorem lruSet_new_evict {c : LruCache} {key : CacheKey}
    (hcap : c.capacity ≠ 0) (hl : lookupEntry c.entries key = none)
    (hlen : c.capacity < c.entries.length + 1) (t0 : Nat) (v : List Suggestion) :
    lruSet c t0 key v =
      { c with entries := (CacheEntry.mk key v (t0 + c.ttl) :: c.entries).dropLast } := by
  rw [lruSet, if_neg hcap, hl]
  show (if c.capacity < (CacheEntry.mk key v (t0 + c.ttl) :: c.entries).length
        then LruCache.mk c.capacity c.ttl
          ((CacheEntry.mk key v (t0 + c.ttl) :: c.entries).dropLast)
        else LruCache.mk c.capacity c.ttl
          (CacheEntry.mk key v (t0 + c.ttl) :: c.entries)) = _
  rw [if_pos (by simpa using hlen)]

theorem lruSet_new_keep {c : LruCache} {key : CacheKey}
    (hcap : c.capacity ≠ 0) (hl : lookupEntry c.entries key = none)
    (hlen : ¬ c.capacity < c.entries.length + 1) (t0 : Nat) (v : List Suggestion) :
    lruSet c t0 key v =
      { c with entries := CacheEntry.mk key v (t0 + c.ttl) :: c.entries } := by
  rw [lruSet, if_neg hcap, hl]
  show (if c.capacity < (CacheEntry.mk key v (t0 + c.ttl) :: c.entries).length
        then LruCache.mk c.capacity c.ttl
          ((CacheEntry.mk key v (t0 + c.ttl) :: c.entries).dropLast)
        else LruCache.mk c.capacity c.ttl
          (CacheEntry.mk key v (t0 + c.ttl) :: c.entries)) = _
  rw [if_neg (by simpa using hlen)]

theorem lruSet_lookup {c : LruCache} (hcap : c.capacity ≠ 0) (t0 : Nat)
    (key : CacheKey) (v : List Suggestion) :
    lookupEntry (lruSet c t0 key v).entries key =
      some (CacheEntry.mk key v (t0 + c.ttl)) := by
  cases hl : lookupEntry c.entries key with
  | some ent =>
      rw [lruSet_replace hcap hl]
      exact lookupEntry_cons_self key v (t0 + c.ttl) (removeKey c.entries key)
  | none =>
      by_cases hlen : c.capacity < c.entries.length + 1
      · rw [lruSet_new_evict hcap hl hlen]
        cases hce : c.entries with
        | nil =>
            exfalso
            rw [hce] at hlen
            simp at hlen
            omega
        | cons b t =>
            show lookupEntry (CacheEntry.mk key v (t0 + c.ttl) :: (b :: t)).dropLast key = _
            show lookupEntry (CacheEntry.mk key v (t0 + c.ttl) :: (b :: t).dropLast) key = _
            exact lookupEntry_cons_self key v (t0 + c.ttl) ((b :: t).dropLast)
      · rw [lruSet_new_keep hcap hl hlen]
        exact lookupEntry_cons_self key v (t0 + c.ttl) c.entries

/-- C8: the cache Get contract.  Get hits exactly when the capacity is
positive, the key is present, and the clock has not passed the expiry;
a present-but-expired entry is removed and reported as a miss; a Get
issued strictly later than a Set instant plus the TTL misses; and with
capacity 0 every Get misses and every Set is a no-op. -/
theorem C8_cache_get_contract (c : LruCache) (now t0 : Nat) (key : CacheKey)
    (v : List Suggestion) :
    ((lruGet c now key).1.isSome = true ↔
      (0 < c.capacity ∧ ∃ ent, lookupEntry c.entries key = some ent ∧
        ¬ ent.expiresAt < now)) ∧
    (∀ ent, 0 < c.capacity → lookupEntry c.entries key = some ent →
      ent.expiresAt < now →
      (lruGet c now key).1 = none ∧
      (lruGet c now key).2.entries = removeKey c.entries key) ∧
    (t0 + c.ttl < now → (lruGet (lruSet c t0 key v) now key).1 = none) ∧
    (c.capacity = 0 → (lruGet c now key).1 = none ∧ lruSet c t0 key v = c) := by
  refine ⟨?_, ?_, ?_, ?_⟩
  · by_cases hcap : c.capacity = 0
    · simp [lruGet, hcap]
    · cases hl : lookupEntry c.entries key with
      | none => simp [lruGet, hcap, hl]
      | some ent =>
          by_cases hexp : ent.expiresAt < now
          · simp [lruGet, hcap, hl, hexp]
          · simp only [lruGet, if_neg hcap, hl, if_neg hexp]
            simp only [Option.isSome_some, true_iff]
            exact ⟨Nat.pos_of_ne_zero hcap, ent, rfl, hexp⟩
  · intro ent hcap hl hexp
    have hcap0 : c.capacity ≠ 0 := Nat.pos_iff_ne_zero.1 hcap
    constructor
    · simp [lruGet, hcap0, hl, hexp]
    · simp [lruGet, hcap0, hl, hexp]
  · intro hlate
    by_cases hcap : c.capacity = 0
    · have hset : lruSet c t0 key v = c := by rw [lruSet, if_pos hcap]
      rw [hset, lruGet, if_pos hcap]
    · have hl := lruSet_lookup hcap t0 key v
      have hcap2 : (lruSet c t0 key v).capacity = c.capacity := by
        rw [lruSet, if_neg hcap]
        cases hlk : lookupEntry c.entries key with
        | some ent => rfl
        | none =>
            show (if _ < _ then _ else LruCache.mk c.capacity c.ttl _).capacity = _
            by_cases hlen : c.capacity <
                (CacheEntry.mk key v (t0 + c.ttl) :: c.entries).length
            · rw [if_pos hlen]
            · rw [if_neg hlen]
      have httl : (lruSet c t0 key v).ttl = c.ttl := by
        rw [lruSet, if_neg hcap]
        cases hlk : lookupEntry c.entries key with
        | some ent => rfl
        | none =>
            show (if _ < _ then _ else LruCache.mk c.capacity c.ttl _).ttl = _
            by_cases hlen : c.capacity <
                (CacheEntry.mk key v (t0 + c.ttl) :: c.entries).length
            · rw [if_pos hlen]
            · rw [if_neg hlen]
      rw [lruGet]
      rw [hcap2, if_neg hcap, hl]
      simp [hlate]
  · intro hcap
    constructor
    · rw [lruGet, if_pos hcap]
    · rw [lruSet, if_pos hcap]

/-! ## PYMK engine (pymk service file)

Float64 arithmetic is modelled over the rationals.  The two transcendental
library calls are replaced by rational stand-ins:
* sqrtQ models math.Sqrt; every verified property depends only on the
  sign of the cosine quotient, and sqrtQ is positive on positive inputs;
* logQ models math.Log; every verified property depends only on logQ
  being positive on arguments greater than 1 (the Adamic-Adar argument is
  always at least 2), which makes the accumulated aa weights non-negative.
Normalization divides each feature by the per-request maximum, so no
claim depends on the absolute value either stand-in produces.

Go map iteration order is unspecified; the embedding takes the adjacency
listings of the graph as explicit lists (a GraphListing), so every
theorem quantifying over listings covers every iteration order, and the
candidate map is iterated in first-insertion order. -/

/-! Indexing lemmas for the heap array. -/

theorem sGetD_eq_getElem (l : List scored) (i : Nat) (h : i < l.length) :
    sGetD l i = l[i] := List.getD_eq_getElem l default h

theorem sGetD_mem (l : List scored) (i : Nat) (h : i < l.length) :
    sGetD l i ∈ l := by
  rw [sGetD_eq_getElem l i h]
  exact List.getElem_mem h

theorem mem_exists_sGetD {l : List scored} {x : scored} (hx : x ∈ l) :
    ∃ i, i < l.length ∧ sGetD l i = x := by
  obtain ⟨i, hi, heq⟩ := List.mem_iff_getElem.1 hx
  exact ⟨i, hi, by rw [sGetD_eq_getElem l i hi]; exact heq⟩

theorem sGetD_set_self (l : List scored) (i : Nat) (a : scored)
    (h : i < l.length) : sGetD (l.set i a) i = a := by
  rw [sGetD, List.getD_eq_getElem (l.set i a) default (by simpa using h)]
  exact List.getElem_set_self _

theorem sGetD_set_ne (l : List scored) {i j : Nat} (a : scored) (hij : i ≠ j) :
    sGetD (l.set i a) j = sGetD l j := by
  by_cases hj : j < l.length
  · rw [sGetD, List.getD_eq_getElem (l.set i a) default (by simpa using hj),
      sGetD, List.getD_eq_getElem l default hj]
    exact List.getElem_set_ne hij _
  · rw [sGetD, List.getD_eq_default _ _ (by simpa using Nat.le_of_not_lt hj),
      sGetD, List.getD_eq_default _ _ (Nat.le_of_not_lt hj)]

theorem sGetD_take (l : List scored) (n i : Nat) (hi : i < n)
    (hn : n ≤ l.length) : sGetD (l.take n) i = sGetD l i := by
  have hlen : i < (l.take n).length := by
    simp only [List.length_take, lt_min_iff]
    exact ⟨hi, lt_of_lt_of_le hi hn⟩
  rw [sGetD, List.getD_eq_getElem (l.take n) default hlen]
  rw [sGetD, List.getD_eq_getElem l default (lt_of_lt_of_le hi hn)]
  exact List.getElem_take l

theorem length_sSwap (l : List scored) (i j : Nat) :
    (sSwap l i j).length = l.length := by
  simp [sSwap]

theorem sGetD_sSwap_fst (l : List scored) {i j : Nat} (hi : i < l.length)
    (hj : j < l.length) : sGetD (sSwap l i j) i = sGetD l j := by
  by_cases hij : i = j
  · subst hij
    rw [sSwap, sGetD_set_self]
    simpa using hi
  · rw [sSwap, sGetD_set_ne _ _ (Ne.symm hij), sGetD_set_self l i _ hi]

theorem sGetD_sSwap_snd (l : List scored) {i j : Nat} (hj : j < l.length) :
    sGetD (sSwap l i j) j = sGetD l i := by
  rw [sSwap, sGetD_set_self]
  simpa using hj

theorem sGetD_sSwap_other (l : List scored) {i j m : Nat} (hmi : m ≠ i)
    (hmj : m ≠ j) : sGetD (sSwap l i j) m = sGetD l m := by
  rw [sSwap, sGetD_set_ne _ _ (Ne.symm hmj), sGetD_set_ne _ _ (Ne.symm hmi)]

theorem set_sGetD_self (l : List scored) (i : Nat) :
    l.set i (sGetD l i) = l := by
  induction l generalizing i with
  | nil => rfl
  | cons x t ih =>
      cases i with
      | zero => rfl
      | succ m =>
          show x :: t.set m (sGetD t m) = x :: t
          rw [ih m]

theorem cons_set_perm (t : List scored) (x : scored) :
    ∀ m, m < t.length → List.Perm (sGetD t m :: t.set m x) (x :: t) := by
  intro m
  induction t generalizing m with
  | nil => intro h; simp at h
  | cons y s ih =>
      intro hm
      cases m with
      | zero =>
          show List.Perm (y :: x :: s) (x :: y :: s)
          exact List.Perm.swap x y s
      | succ m2 =>
          show List.Perm (sGetD s m2 :: y :: s.set m2 x) (x :: y :: s)
          have h1 : List.Perm (sGetD s m2 :: y :: s.set m2 x)
              (y :: sGetD s m2 :: s.set m2 x) := List.Perm.swap y (sGetD s m2) _
          have h2 : List.Perm (y :: sGetD s m2 :: s.set m2 x) (y :: x :: s) :=
            List.Perm.cons y (ih m2 (by simpa using hm))
          exact h1.trans (h2.trans (List.Perm.swap x y s))

theorem sSwap_perm (l : List scored) :
    ∀ i j, i < l.length → j < l.length → List.Perm (sSwap l i j) l := by
  intro i j hi hj
  by_cases hij : i = j
  · subst hij
    rw [sSwap, set_sGetD_self, set_sGetD_self]
  · induction l generalizing i j with
    | nil => simp at hi
    | cons x t ih =>
        match i, j, hij with
        | 0, m+1, _ =>
            show List.Perm ((( (x :: t).set 0 (sGetD t m))).set (m+1) x) (x :: t)
            show List.Perm (sGetD t m :: t.set m x) (x :: t)
            exact cons_set_perm t x m (by simpa using hj)
        | m+1, 0, _ =>
            show List.Perm (((x :: t.set m (sGetD (x :: t) 0))).set 0 (sGetD t m)) (x :: t)
            show List.Perm (sGetD t m :: t.set m x) (x :: t)
            exact cons_set_perm t x m (by simpa using hi)
        | a+1, b+1, hab =>
            show List.Perm (x :: sSwap t a b) (x :: t)
            exact List.Perm.cons x
              (ih a b (by simpa using hi) (by simpa using hj) (fun h => hab (by rw [h])))

theorem heap_root_min {l : List scored} {n : Nat} (h : IsHeapN l n) :
    ∀ j, j < n → (sGetD l 0).score ≤ (sGetD l j).score := by
  intro j
  induction j using Nat.strong_induction_on with
  | _ j ih =>
      intro hj
      cases Nat.eq_zero_or_pos j with
      | inl h0 => rw [h0]
      | inr hpos =>
          have hp : (j - 1) / 2 < j := by omega
          exact le_trans (ih ((j - 1) / 2) hp (lt_trans hp hj)) (h j hpos hj)

theorem siftUp_perm : ∀ (fuel : Nat) (l : List scored) (j : Nat), j < l.length →
    List.Perm (siftUp l j fuel) l := by
  intro fuel
  induction fuel with
  | zero => intro l j _; exact List.Perm.refl l
  | succ fuel ih =>
      intro l j hj
      simp only [siftUp]
      by_cases hj0 : j = 0
      · rw [if_pos hj0]
      · rw [if_neg hj0]
        by_cases hlt : (sGetD l j).score < (sGetD l ((j - 1) / 2)).score
        · rw [if_pos hlt]
          have hij : (j - 1) / 2 < j := by omega
          refine List.Perm.trans (ih (sSwap l ((j - 1) / 2) j) ((j - 1) / 2) ?_)
            (sSwap_perm l ((j - 1) / 2) j (lt_trans hij hj) hj)
          rw [length_sSwap]
          exact lt_trans hij hj
        · rw [if_neg hlt]

theorem upInv_swap {l : List scored} {j : Nat} (hj0 : j ≠ 0) (hjl : j < l.length)
    (inv : UpInv l l.length j)
    (hlt : (sGetD l j).score < (sGetD l ((j - 1) / 2)).score) :
    UpInv (sSwap l ((j - 1) / 2) j) l.length ((j - 1) / 2) := by
  have hij : (j - 1) / 2 < j := by omega
  have hil : (j - 1) / 2 < l.length := lt_trans hij hjl
  have ha_i : sGetD (sSwap l ((j - 1) / 2) j) ((j - 1) / 2) = sGetD l j :=
    sGetD_sSwap_fst l hil hjl
  have ha_j : sGetD (sSwap l ((j - 1) / 2) j) j = sGetD l ((j - 1) / 2) :=
    sGetD_sSwap_snd l hjl
  constructor
  · intro c hc0 hcn hci
    by_cases hcj : c = j
    · subst hcj
      rw [ha_i, ha_j]
      exact le_of_lt hlt
    · by_cases hpi : (c - 1) / 2 = (j - 1) / 2
      · rw [hpi, ha_i, sGetD_sSwap_other l hci hcj]
        have h1 := inv.1 c hc0 hcn hcj
        rw [hpi] at h1
        exact le_trans (le_of_lt hlt) h1
      · by_cases hpj : (c - 1) / 2 = j
        · rw [hpj, ha_j, sGetD_sSwap_other l hci hcj]
          exact inv.2 (Nat.pos_of_ne_zero hj0) c hcn hpj
        · rw [sGetD_sSwap_other l hpi hpj, sGetD_sSwap_other l hci hcj]
          exact inv.1 c hc0 hcn hcj
  · intro hi0 c hcn hpc
    have hgi : (((j - 1) / 2 - 1) / 2) ≠ (j - 1) / 2 := by omega
    have hgj : (((j - 1) / 2 - 1) / 2) ≠ j := by omega
    rw [sGetD_sSwap_other l hgi hgj]
    have hgile : (sGetD l (((j - 1) / 2 - 1) / 2)).score ≤
        (sGetD l ((j - 1) / 2)).score :=
      inv.1 ((j - 1) / 2) hi0 hil (by omega)
    by_cases hcj : c = j
    · subst hcj
      rw [ha_j]
      exact hgile
    · have hci2 : c ≠ (j - 1) / 2 := by omega
      rw [sGetD_sSwap_other l hci2 hcj]
      have h2 : (sGetD l ((c - 1) / 2)).score ≤ (sGetD l c).score :=
        inv.1 c (by omega) hcn hcj
      rw [hpc] at h2
      exact le_trans hgile h2

theorem siftUp_heap : ∀ (fuel : Nat) (l : List scored) (j : Nat), j < fuel →
    j < l.length → UpInv l l.length j → IsHeapN (siftUp l j fuel) l.length := by
  intro fuel
  induction fuel with
  | zero => intro l j hjf; exact absurd hjf (Nat.not_lt_zero j)
  | succ fuel ih =>
      intro l j hjf hjl inv
      simp only [siftUp]
      by_cases hj0 : j = 0
      · rw [if_pos hj0]
        intro c hc0 hcn
        exact inv.1 c hc0 hcn (by omega)
      · rw [if_neg hj0]
        by_cases hlt : (sGetD l j).score < (sGetD l ((j - 1) / 2)).score
        · rw [if_pos hlt]
          have hij : (j - 1) / 2 < j := by omega
          have hlen : (sSwap l ((j - 1) / 2) j).length = l.length :=
            length_sSwap l _ j
          have hres := ih (sSwap l ((j - 1) / 2) j) ((j - 1) / 2)
            (by omega) (by rw [hlen]; exact lt_trans hij hjl)
            (by rw [hlen]; exact upInv_swap hj0 hjl inv hlt)
          rwa [hlen] at hres
        · rw [if_neg hlt]
          intro c hc0 hcn
          by_cases hcj : c = j
          · subst hcj
            exact not_lt.1 hlt
          · exact inv.1 c hc0 hcn hcj

theorem sGetD_append_lt (l l2 : List scored) (m : Nat) (h : m < l.length) :
    sGetD (l ++ l2) m = sGetD l m := List.getD_append l l2 default m h

theorem upInv_append {l : List scored} (hl : IsHeapN l l.length) (x : scored) :
    UpInv (l ++ [x]) (l ++ [x]).length l.length := by
  constructor
  · intro c hc0 hcn hcl
    have hlen : (l ++ [x]).length = l.length + 1 := by simp
    have hcl2 : c < l.length := by omega
    have hp : (c - 1) / 2 < l.length := by omega
    rw [sGetD_append_lt l [x] _ hp, sGetD_append_lt l [x] c hcl2]
    exact hl c hc0 hcl2
  · intro h0 c hcn hpe
    have hlen : (l ++ [x]).length = l.length + 1 := by simp
    exfalso
    omega

theorem hpush_heap {l : List scored} (hl : IsHeapN l l.length) (x : scored) :
    IsHeapN (hpush l x) (l.length + 1) := by
  have h := siftUp_heap (l.length + 1) (l ++ [x]) l.length
    (by omega) (by simp) (upInv_append hl x)
  have hlen : (l ++ [x]).length = l.length + 1 := by simp
  rw [hlen] at h
  exact h

theorem hpush_perm (l : List scored) (x : scored) :
    List.Perm (hpush l x) (l ++ [x]) :=
  siftUp_perm (l.length + 1) (l ++ [x]) l.length (by simp)

theorem hpush_length (l : List scored) (x : scored) :
    (hpush l x).length = l.length + 1 := by
  rw [(hpush_perm l x).length_eq]
  simp

theorem siftDown_frame (n : Nat) : ∀ (fuel : Nat) (l : List scored) (i m : Nat),
    n ≤ m → sGetD (siftDown n l i fuel) m = sGetD l m := by
  intro fuel
  induction fuel with
  | zero => intro l i m _; rfl
  | succ fuel ih =>
      intro l i m hm
      simp only [siftDown]
      by_cases hguard : n ≤ 2 * i + 1
      · rw [if_pos hguard]
      · rw [if_neg hguard]
        by_cases hsel : 2 * i + 2 < n ∧
            (sGetD l (2 * i + 2)).score < (sGetD l (2 * i + 1)).score
        · rw [if_pos hsel]
          by_cases hlt : (sGetD l (2 * i + 2)).score < (sGetD l i).score
          · rw [if_pos hlt, ih (sSwap l i (2 * i + 2)) (2 * i + 2) m hm]
            exact sGetD_sSwap_other l (by omega) (by omega)
          · rw [if_neg hlt]
        · rw [if_neg hsel]
          by_cases hlt : (sGetD l (2 * i + 1)).score < (sGetD l i).score
          · rw [if_pos hlt, ih (sSwap l i (2 * i + 1)) (2 * i + 1) m hm]
            exact sGetD_sSwap_other l (by omega) (by omega)
          · rw [if_neg hlt]

theorem siftDown_perm (n : Nat) : ∀ (fuel : Nat) (l : List scored) (i : Nat),
    n ≤ l.length → List.Perm (siftDown n l i fuel) l := by
  intro fuel
  induction fuel with
  | zero => intro l i _; exact List.Perm.refl l
  | succ fuel ih =>
      intro l i hn
      simp only [siftDown]
      by_cases hguard : n ≤ 2 * i + 1
      · rw [if_pos hguard]
      · rw [if_neg hguard]
        by_cases hsel : 2 * i + 2 < n ∧
            (sGetD l (2 * i + 2)).score < (sGetD l (2 * i + 1)).score
        · rw [if_pos hsel]
          by_cases hlt : (sGetD l (2 * i + 2)).score < (sGetD l i).score
          · rw [if_pos hlt]
            refine List.Perm.trans (ih (sSwap l i (2 * i + 2)) (2 * i + 2) ?_)
              (sSwap_perm l i (2 * i + 2) (by omega) (by omega))
            rw [length_sSwap]
            exact hn
          · rw [if_neg hlt]
        · rw [if_neg hsel]
          by_cases hlt : (sGetD l (2 * i + 1)).score < (sGetD l i).score
          · rw [if_pos hlt]
            refine List.Perm.trans (ih (sSwap l i (2 * i + 1)) (2 * i + 1) ?_)
              (sSwap_perm l i (2 * i + 1) (by omega) (by omega))
            rw [length_sSwap]
            exact hn
          · rw [if_neg hlt]

theorem downInv_swap {l : List scored} {n i jj : Nat} (hn : n ≤ l.length)
    (hin : 2 * i + 1 < n) (hjn : jj < n)
    (hjch : jj = 2 * i + 1 ∨ jj = 2 * i + 2)
    (hjmin : ∀ c, 0 < c → c < n → (c - 1) / 2 = i →
      (sGetD l jj).score ≤ (sGetD l c).score)
    (inv : DownInv l n i)
    (hlt : (sGetD l jj).score < (sGetD l i).score) :
    DownInv (sSwap l i jj) n jj := by
  have hjc : (jj - 1) / 2 = i := by omega
  have hij : i < jj := by omega
  have hil : i < l.length := by omega
  have hjl : jj < l.length := by omega
  have ha_i : sGetD (sSwap l i jj) i = sGetD l jj := sGetD_sSwap_fst l hil hjl
  have ha_j : sGetD (sSwap l i jj) jj = sGetD l i := sGetD_sSwap_snd l hjl
  constructor
  · intro c hc0 hcn hcj
    by_cases hci : c = i
    · subst hci
      have hp_ne_c : (c - 1) / 2 ≠ c := by omega
      have hp_ne_j : (c - 1) / 2 ≠ jj := by omega
      rw [sGetD_sSwap_other l hp_ne_c hp_ne_j, ha_i]
      exact inv.2 hc0 jj hjn hjc
    · by_cases hcjj : c = jj
      · subst hcjj
        rw [hjc, ha_i, ha_j]
        exact le_of_lt hlt
      · by_cases hpi : (c - 1) / 2 = i
        · rw [hpi, ha_i, sGetD_sSwap_other l hci hcjj]
          exact hjmin c hc0 hcn hpi
        · rw [sGetD_sSwap_other l hpi hcj, sGetD_sSwap_other l hci hcjj]
          exact inv.1 c hc0 hcn hpi
  · intro hjj0 c hcn hpc
    rw [hjc, ha_i]
    have hc_ne_i : c ≠ i := by omega
    have hc_ne_j : c ≠ jj := by omega
    rw [sGetD_sSwap_other l hc_ne_i hc_ne_j, ← hpc]
    exact inv.1 c (by omega) hcn (by omega)

theorem siftDown_heap (n : Nat) : ∀ (fuel : Nat) (l : List scored) (i : Nat),
    n ≤ fuel + i → n ≤ l.length → DownInv l n i →
    IsHeapN (siftDown n l i fuel) n := by
  intro fuel
  induction fuel with
  | zero =>
      intro l i hf hn inv
      intro c hc0 hcn
      by_cases hpi : (c - 1) / 2 = i
      · exact absurd hcn (by omega)
      · exact inv.1 c hc0 hcn hpi
  | succ fuel ih =>
      intro l i hf hn inv
      simp only [siftDown]
      by_cases hguard : n ≤ 2 * i + 1
      · rw [if_pos hguard]
        intro c hc0 hcn
        by_cases hpi : (c - 1) / 2 = i
        · exact absurd hcn (by omega)
        · exact inv.1 c hc0 hcn hpi
      · rw [if_neg hguard]
        have main : ∀ jj, jj < n → (jj = 2 * i + 1 ∨ jj = 2 * i + 2) →
            (∀ c, 0 < c → c < n → (c - 1) / 2 = i →
              (sGetD l jj).score ≤ (sGetD l c).score) →
            IsHeapN (if (sGetD l jj).score < (sGetD l i).score
                     then siftDown n (sSwap l i jj) jj fuel else l) n := by
          intro jj hjn hjch hjmin
          by_cases hlt : (sGetD l jj).score < (sGetD l i).score
          · rw [if_pos hlt]
            refine ih (sSwap l i jj) jj (by omega)
              (by rw [length_sSwap]; exact hn)
              (downInv_swap hn (by omega) hjn hjch hjmin inv hlt)
          · rw [if_neg hlt]
            intro c hc0 hcn
            by_cases hpi : (c - 1) / 2 = i
            · rw [hpi]
              exact le_trans (not_lt.1 hlt) (hjmin c hc0 hcn hpi)
            · exact inv.1 c hc0 hcn hpi
        by_cases hsel : 2 * i + 2 < n ∧
            (sGetD l (2 * i + 2)).score < (sGetD l (2 * i + 1)).score
        · rw [if_pos hsel]
          refine main (2 * i + 2) (by omega) (Or.inr rfl) ?_
          intro c hc0 hcn hpc
          have hcase : c = 2 * i + 1 ∨ c = 2 * i + 2 := by omega
          rcases hcase with hc | hc
          · rw [hc]
            exact le_of_lt hsel.2
          · rw [hc]
        · rw [if_neg hsel]
          refine main (2 * i + 1) (by omega) (Or.inl rfl) ?_
          intro c hc0 hcn hpc
          have hcase : c = 2 * i + 1 ∨ c = 2 * i + 2 := by omega
          rcases hcase with hc | hc
          · rw [hc]
          · rw [hc]
            rcases not_and_or.1 hsel with h1 | h1
            · exact absurd (by omega : 2 * i + 2 < n) h1
            · exact not_lt.1 h1

theorem hpop_spec {l : List scored} (hne : 0 < l.length)
    (hl : IsHeapN l l.length) :
    (hpop l).1 = sGetD l 0 ∧
    (hpop l).2.length = l.length - 1 ∧
    IsHeapN (hpop l).2 ((hpop l).2.length) ∧
    List.Perm l ((hpop l).1 :: (hpop l).2) ∧
    (∀ y ∈ l, ((hpop l).1).score ≤ y.score) := by
  have hn : l.length - 1 ≤ l.length := Nat.sub_le _ _
  have hlen1 : (sSwap l 0 (l.length - 1)).length = l.length := length_sSwap _ _ _
  have hperm2 : List.Perm
      (siftDown (l.length - 1) (sSwap l 0 (l.length - 1)) 0 (l.length - 1 + 1))
      (sSwap l 0 (l.length - 1)) :=
    siftDown_perm (l.length - 1) (l.length - 1 + 1) _ 0 (by omega)
  have hlen2 : (siftDown (l.length - 1) (sSwap l 0 (l.length - 1)) 0
      (l.length - 1 + 1)).length = l.length := by
    rw [hperm2.length_eq, hlen1]
  have hpopped : (hpop l).1 = sGetD l 0 := by
    show sGetD (siftDown (l.length - 1) (sSwap l 0 (l.length - 1)) 0
      (l.length - 1 + 1)) (l.length - 1) = sGetD l 0
    rw [siftDown_frame (l.length - 1) _ _ 0 (l.length - 1) (le_refl _)]
    exact sGetD_sSwap_snd l (by omega)
  have hinv : DownInv (sSwap l 0 (l.length - 1)) (l.length - 1) 0 := by
    constructor
    · intro c hc0 hcn hp0
      have h1 : (c - 1) / 2 ≠ 0 := hp0
      rw [sGetD_sSwap_other l (by omega) (by omega : (c - 1) / 2 ≠ l.length - 1),
        sGetD_sSwap_other l (by omega) (by omega : c ≠ l.length - 1)]
      exact hl c hc0 (by omega)
    · intro h0
      exact absurd h0 (by omega)
  have hheap2 : IsHeapN (siftDown (l.length - 1) (sSwap l 0 (l.length - 1)) 0
      (l.length - 1 + 1)) (l.length - 1) :=
    siftDown_heap (l.length - 1) (l.length - 1 + 1) _ 0 (by omega)
      (by rw [hlen1]; omega) hinv
  have hrestlen : (hpop l).2.length = l.length - 1 := by
    show ((siftDown (l.length - 1) (sSwap l 0 (l.length - 1)) 0
      (l.length - 1 + 1)).take (l.length - 1)).length = l.length - 1
    rw [List.length_take, hlen2]
    omega
  refine ⟨hpopped, hrestlen, ?_, ?_, ?_⟩
  · rw [hrestlen]
    intro j hj0 hjn
    show (sGetD ((siftDown (l.length - 1) (sSwap l 0 (l.length - 1)) 0
        (l.length - 1 + 1)).take (l.length - 1)) ((j - 1) / 2)).score ≤
      (sGetD ((siftDown (l.length - 1) (sSwap l 0 (l.length - 1)) 0
        (l.length - 1 + 1)).take (l.length - 1)) j).score
    rw [sGetD_take _ _ _ (by omega) (by rw [hlen2]; omega),
      sGetD_take _ _ _ hjn (by rw [hlen2]; omega)]
    exact hheap2 j hj0 hjn
  · set l2 := siftDown (l.length - 1) (sSwap l 0 (l.length - 1)) 0
      (l.length - 1 + 1) with hl2def
    have hsplit : l2 = l2.take (l.length - 1) ++ l2.drop (l.length - 1) :=
      (List.take_append_drop _ l2).symm
    have hdrop : l2.drop (l.length - 1) = [sGetD l2 (l.length - 1)] := by
      have hd1 : l2.drop (l.length - 1) =
          sGetD l2 (l.length - 1) :: l2.drop (l.length - 1 + 1) := by
        rw [sGetD_eq_getElem l2 (l.length - 1) (by omega)]
        exact List.drop_eq_getElem_cons (by omega)
      have hd2 : l2.drop (l.length - 1 + 1) = [] :=
        List.drop_eq_nil_of_le (by omega)
      rw [hd1, hd2]
    have hperm3 : List.Perm l l2 :=
      ((hperm2.trans (sSwap_perm l 0 (l.length - 1) (by omega) (by omega)))).symm
    refine List.Perm.trans hperm3 ?_
    conv_lhs => rw [hsplit, hdrop]
    refine List.Perm.trans (List.perm_append_singleton _ _) ?_
    rw [hpopped]
    have : sGetD l2 (l.length - 1) = sGetD l 0 := by
      rw [hl2def]
      rw [siftDown_frame (l.length - 1) _ _ 0 (l.length - 1) (le_refl _)]
      exact sGetD_sSwap_snd l (by omega)
    rw [this]
    exact List.Perm.refl _
  · intro y hy
    obtain ⟨idx, hidx, heq⟩ := mem_exists_sGetD hy
    rw [hpopped, ← heq]
    exact heap_root_min hl idx hidx

theorem topStep_inv {k : Nat} (hk : 0 < k) {seen h : List scored} {s : scored}
    (inv : TopInv k seen h) : TopInv k (seen ++ [s]) (topStep k h s) := by
  obtain ⟨hheap, hlen, rej, hms, hcond⟩ := inv
  rw [topStep]
  by_cases hfull : h.length < k
  · rw [if_pos hfull]
    have hseen : h.length = seen.length := by omega
    have hrej0 : rej = 0 := by
      have hc := congrArg Multiset.card hms
      simp only [Multiset.coe_card, Multiset.card_add] at hc
      have : Multiset.card rej = 0 := by omega
      exact Multiset.card_eq_zero.1 this
    subst hrej0
    refine ⟨?_, ?_, 0, ?_, by simp⟩
    · have := hpush_heap hheap s
      rwa [← hpush_length h s] at this
    · rw [hpush_length h s]
      simp only [List.length_append, List.length_singleton]
      omega
    · have hps : (↑(hpush h s) : Multiset scored) = ↑(h ++ [s]) :=
        Multiset.coe_eq_coe.2 (hpush_perm h s)
      rw [hps]
      simp only [← Multiset.coe_add] at hms ⊢
      rw [add_zero] at hms
      simp [hms]
  · rw [if_neg hfull]
    have hlenk : h.length = k := by omega
    have hne : 0 < h.length := by omega
    obtain ⟨hp1, hp2, hp3, hp4, hp5⟩ := hpop_spec hne hheap
    have hroot_mem : (hpop h).1 ∈ h := by
      rw [hp1]
      exact sGetD_mem h 0 hne
    have hmem_h1 : ∀ y, y ∈ (hpop h).2 → y ∈ h := by
      intro y hy
      exact hp4.symm.subset (List.mem_cons_of_mem _ hy)
    have hsplit : (↑h : Multiset scored) = ↑(hpop h).2 + {(hpop h).1} := by
      rw [Multiset.coe_eq_coe.2 hp4, ← Multiset.cons_coe, ← Multiset.singleton_add]
      exact add_comm _ _
    by_cases hlt : (sGetD h 0).score < s.score
    · rw [if_pos hlt]
      have hp_lt : ((hpop h).1).score < s.score := by rw [hp1]; exact hlt
      refine ⟨?_, ?_, rej + {(hpop h).1}, ?_, ?_⟩
      · have := hpush_heap hp3 s
        rwa [← hpush_length (hpop h).2 s] at this
      · rw [hpush_length (hpop h).2 s, hp2]
        simp only [List.length_append, List.length_singleton]
        omega
      · have hps : (↑(hpush (hpop h).2 s) : Multiset scored) =
            ↑((hpop h).2 ++ [s]) := Multiset.coe_eq_coe.2 (hpush_perm _ s)
        rw [hps]
        have h1 : (↑(seen ++ [s]) : Multiset scored) = ↑seen + {s} :=
          (Multiset.coe_add seen [s]).symm
        have h2 : (↑((hpop h).2 ++ [s]) : Multiset scored) = ↑(hpop h).2 + {s} :=
          (Multiset.coe_add (hpop h).2 [s]).symm
        rw [h1, h2, hms, hsplit]
        abel
      · intro x hx y hy
        have hy2 : y ∈ (hpop h).2 ∨ y = s := by
          have : y ∈ ((hpop h).2 ++ [s] : List scored) := by
            have hps : (↑(hpush (hpop h).2 s) : Multiset scored) =
                ↑((hpop h).2 ++ [s]) := Multiset.coe_eq_coe.2 (hpush_perm _ s)
            have := (hpush_perm (hpop h).2 s).subset hy
            exact this
          rcases List.mem_append.1 this with h | h
          · exact Or.inl h
          · exact Or.inr (List.mem_singleton.1 h)
        rcases Multiset.mem_add.1 hx with hxr | hxp
        · rcases hy2 with hy3 | hy3
          · exact hcond x hxr y (hmem_h1 y hy3)
          · subst hy3
            exact le_trans (hcond x hxr _ hroot_mem) (le_of_lt hp_lt)
        · have hxp2 : x = (hpop h).1 := Multiset.mem_singleton.1 hxp
          subst hxp2
          rcases hy2 with hy3 | hy3
          · exact hp5 y (hmem_h1 y hy3)
          · subst hy3
            exact le_of_lt hp_lt
    · rw [if_neg hlt]
      refine ⟨hheap, ?_, rej + {s}, ?_, ?_⟩
      · simp only [List.length_append, List.length_singleton]
        omega
      · have h1 : (↑(seen ++ [s]) : Multiset scored) = ↑seen + {s} :=
          (Multiset.coe_add seen [s]).symm
        rw [h1, hms]
        abel
      · intro x hx y hy
        rcases Multiset.mem_add.1 hx with hxr | hxs
        · exact hcond x hxr y hy
        · have hxs2 : x = s := Multiset.mem_singleton.1 hxs
          subst hxs2
          obtain ⟨idx, hidx, heq⟩ := mem_exists_sGetD hy
          rw [← heq]
          exact le_trans (not_lt.1 hlt) (heap_root_min hheap idx hidx)

theorem topKHeap_inv (k : Nat) (hk : 0 < k) (l : List scored) :
    TopInv k l (topKHeap k l) := by
  have main : ∀ (l2 seen h : List scored), TopInv k seen h →
      TopInv k (seen ++ l2) (l2.foldl (topStep k) h) := by
    intro l2
    induction l2 with
    | nil => intro seen h inv; simpa using inv
    | cons s t ih =>
        intro seen h inv
        have h1 := ih (seen ++ [s]) (topStep k h s) (topStep_inv hk inv)
        rw [List.append_assoc] at h1
        simpa using h1
  have h0 : TopInv k [] [] := by
    refine ⟨?_, by simp, 0, by simp, by simp⟩
    intro j hj0 hjn
    simp at hjn
  simpa using main l [] [] h0

theorem drain_spec : ∀ (m : Nat) (h : List scored) (acc : List Suggestion),
    m = h.length → IsHeapN h h.length →
    List.Sorted (fun a b : Suggestion => b.score ≤ a.score) acc →
    (∀ a ∈ acc, ∀ y ∈ h, a.score ≤ y.score) →
    List.Sorted (fun a b : Suggestion => b.score ≤ a.score) (drainHeap m h acc) ∧
    (↑(drainHeap m h acc) : Multiset Suggestion) =
      ↑(h.map toSuggestion) + ↑acc := by
  intro m
  induction m with
  | zero =>
      intro h acc hm hh hs hcond
      have h0 : h = [] := List.length_eq_zero.1 hm.symm
      subst h0
      exact ⟨hs, by simp [drainHeap]⟩
  | succ m ih =>
      intro h acc hm hh hs hcond
      have hne : 0 < h.length := by omega
      obtain ⟨hp1, hp2, hp3, hp4, hp5⟩ := hpop_spec hne hh
      have hroot_mem : (hpop h).1 ∈ h := by
        rw [hp1]
        exact sGetD_mem h 0 hne
      have hmem_h1 : ∀ y, y ∈ (hpop h).2 → y ∈ h := by
        intro y hy
        exact hp4.symm.subset (List.mem_cons_of_mem _ hy)
      have hs2 : List.Sorted (fun a b : Suggestion => b.score ≤ a.score)
          (toSuggestion (hpop h).1 :: acc) := by
        rw [List.sorted_cons]
        refine ⟨?_, hs⟩
        intro b hb
        exact hcond b hb _ hroot_mem
      have hcond2 : ∀ a ∈ toSuggestion (hpop h).1 :: acc,
          ∀ y ∈ (hpop h).2, a.score ≤ y.score := by
        intro a ha y hy
        rcases List.mem_cons.1 ha with h1 | h1
        · subst h1
          exact hp5 y (hmem_h1 y hy)
        · exact hcond a h1 y (hmem_h1 y hy)
      have hres := ih (hpop h).2 (toSuggestion (hpop h).1 :: acc)
        (by omega) hp3 hs2 hcond2
      have hstep : drainHeap (m + 1) h acc =
          drainHeap m (hpop h).2 (toSuggestion (hpop h).1 :: acc) := rfl
      rw [hstep]
      refine ⟨hres.1, ?_⟩
      rw [hres.2]
      have hmapperm : List.Perm (h.map toSuggestion)
          (toSuggestion (hpop h).1 :: (hpop h).2.map toSuggestion) := by
        have := hp4.map toSuggestion
        simpa using this
      rw [Multiset.coe_eq_coe.2 hmapperm]
      show (↑((hpop h).2.map toSuggestion) : Multiset Suggestion) +
          ↑(toSuggestion (hpop h).1 :: acc) =
        ↑(toSuggestion (hpop h).1 :: (hpop h).2.map toSuggestion) + ↑acc
      simp only [← Multiset.cons_coe, ← Multiset.coe_add]
      rw [Multiset.add_cons, Multiset.cons_add]

theorem emitTopK_spec (k : Nat) (hk : 0 < k) (l : List scored) :
    (emitTopK k l).length ≤ k ∧
    List.Sorted (fun a b : Suggestion => b.score ≤ a.score) (emitTopK k l) ∧
    (∀ sug ∈ emitTopK k l, ∃ y, y ∈ l ∧ toSuggestion y = sug) ∧
    (∀ c ∈ l, toSuggestion c ∉ emitTopK k l →
      ∀ r ∈ emitTopK k l, c.score ≤ r.score) := by
  obtain ⟨hheap, hlen, rej, hms, hcond⟩ := topKHeap_inv k hk l
  have hd := drain_spec (topKHeap k l).length (topKHeap k l) [] rfl hheap
    (by simp) (by simp)
  have hms_res : (↑(emitTopK k l) : Multiset Suggestion) =
      ↑((topKHeap k l).map toSuggestion) := by
    have := hd.2
    simpa [emitTopK] using this
  have hmem_res : ∀ sug, sug ∈ emitTopK k l ↔
      sug ∈ (topKHeap k l).map toSuggestion := by
    intro sug
    constructor
    · intro hsug
      have : sug ∈ (↑(emitTopK k l) : Multiset Suggestion) := by
        simpa using hsug
      rw [hms_res] at this
      simpa using this
    · intro hsug
      have : sug ∈ (↑((topKHeap k l).map toSuggestion) : Multiset Suggestion) := by
        simpa using hsug
      rw [← hms_res] at this
      simpa using this
  have hmem_l : ∀ y, y ∈ topKHeap k l → y ∈ l := by
    intro y hy
    have : y ∈ (↑l : Multiset scored) := by
      rw [hms]
      exact Multiset.mem_add.2 (Or.inl (by simpa using hy))
    simpa using this
  refine ⟨?_, ?_, ?_, ?_⟩
  · have hcard := congrArg Multiset.card hms_res
    simp only [Multiset.coe_card, List.length_map] at hcard
    omega
  · have := hd.1
    simpa [emitTopK] using this
  · intro sug hsug
    obtain ⟨y, hy, heq⟩ := List.mem_map.1 ((hmem_res sug).1 hsug)
    exact ⟨y, hmem_l y hy, heq⟩
  · intro c hc hnot r hr
    have hc2 : c ∈ (↑(topKHeap k l) : Multiset scored) + rej := by
      rw [← hms]
      simpa using hc
    rcases Multiset.mem_add.1 hc2 with hch | hcr
    · exfalso
      refine hnot ((hmem_res (toSuggestion c)).2 ?_)
      exact List.mem_map.2 ⟨c, by simpa using hch, rfl⟩
    · obtain ⟨y, hy, heq⟩ := List.mem_map.1 ((hmem_res r).1 hr)
      have := hcond c hcr y hy
      rw [← heq]
      exact this

/-! Lemmas about the expansion phase. -/

theorem count_cons_eq (a b : UserId) (l : List UserId) :
    (b :: l).count a = l.count a + if a = b then 1 else 0 := by
  rw [List.count_cons]
  by_cases h : a = b
  · simp [h]
  · have h2 : ¬b = a := fun he => h he.symm
    simp [h, h2]

theorem statsBump_keys {st : StatsMap} {c x : UserId} {aaW : ℚ}
    (hx : x ∈ (statsBump st c aaW).keys) : x ∈ st.keys ∨ x = c := by
  by_cases hc : c ∈ st.keys
  · simp only [statsBump, if_pos hc] at hx
    exact Or.inl hx
  · simp only [statsBump, if_neg hc] at hx
    rcases List.mem_append.1 hx with h | h
    · exact Or.inl h
    · exact Or.inr (List.mem_singleton.1 h)

theorem bump_fold_keys (u : UserId) (oneHop exclude : Finset UserId) (aaW : ℚ) :
    ∀ (ns : List UserId) (st : StatsMap) (x : UserId),
      x ∈ ((ns.foldl (fun acc c => if admitCand u oneHop exclude c
        then statsBump acc c aaW else acc) st).keys) →
      x ∈ st.keys ∨ admitCand u oneHop exclude x = true := by
  intro ns
  induction ns with
  | nil => intro st x hx; exact Or.inl hx
  | cons c rest ih =>
      intro st x hx
      simp only [List.foldl_cons] at hx
      by_cases hadm : admitCand u oneHop exclude c = true
      · rw [if_pos hadm] at hx
        rcases ih (statsBump st c aaW) x hx with h | h
        · rcases statsBump_keys h with h2 | h2
          · exact Or.inl h2
          · subst h2
            exact Or.inr hadm
        · exact Or.inr h
      · rw [if_neg hadm] at hx
        exact ih st x hx

theorem expandOne_keys {cfg : PYMKConfig} {gv : GraphListing} {u : UserId}
    {oneHop exclude : Finset UserId} {st : StatsMap} {n x : UserId}
    (hx : x ∈ (expandOne cfg gv u oneHop exclude st n).keys) :
    x ∈ st.keys ∨ admitCand u oneHop exclude x = true :=
  bump_fold_keys u oneHop exclude (aaWeightOf gv n)
    (truncNeighbors cfg (gv.followingL n)) st x hx

theorem expand_fold_keys {cfg : PYMKConfig} {gv : GraphListing} {u : UserId}
    {oneHop exclude : Finset UserId} :
    ∀ (nlist : List UserId) (st : StatsMap) (x : UserId),
      x ∈ ((nlist.foldl (expandOne cfg gv u oneHop exclude) st).keys) →
      x ∈ st.keys ∨ admitCand u oneHop exclude x = true := by
  intro nlist
  induction nlist with
  | nil => intro st x hx; exact Or.inl hx
  | cons n rest ih =>
      intro st x hx
      simp only [List.foldl_cons] at hx
      rcases ih (expandOne cfg gv u oneHop exclude st n) x hx with h | h
      · exact expandOne_keys h
      · exact Or.inr h

theorem expandAll_keys {cfg : PYMKConfig} {gv : GraphListing} {u : UserId}
    {oneHop exclude : Finset UserId} {x : UserId}
    (hx : x ∈ (expandAll cfg gv u oneHop exclude).keys) :
    admitCand u oneHop exclude x = true := by
  rcases expand_fold_keys (gv.followersL u) _ x hx with h | h
  · rcases expand_fold_keys (gv.followingL u) emptyStats x h with h2 | h2
    · exact absurd h2 (List.not_mem_nil x)
    · exact h2
  · exact h

theorem admitCand_true {u : UserId} {oneHop exclude : Finset UserId} {c : UserId}
    (h : admitCand u oneHop exclude c = true) :
    c ≠ u ∧ c ∉ oneHop ∧ c ∉ exclude := by
  by_cases h1 : c = u
  · rw [admitCand, if_pos h1] at h
    exact absurd h (by simp)
  · by_cases h2 : c ∈ oneHop
    · rw [admitCand, if_neg h1, if_pos h2] at h
      exact absurd h (by simp)
    · by_cases h3 : c ∈ exclude
      · rw [admitCand, if_neg h1, if_neg h2, if_pos h3] at h
        exact absurd h (by simp)
      · exact ⟨h1, h2, h3⟩

theorem bump_fold_common (u : UserId) (oneHop exclude : Finset UserId) (aaW : ℚ) :
    ∀ (ns : List UserId) (st : StatsMap) (c : UserId),
      (((ns.foldl (fun acc x => if admitCand u oneHop exclude x
          then statsBump acc x aaW else acc) st).val c).common) =
        (st.val c).common +
          (if admitCand u oneHop exclude c = true then ns.count c else 0) := by
  intro ns
  induction ns with
  | nil =>
      intro st c
      simp [List.count_nil]
  | cons x rest ih =>
      intro st c
      simp only [List.foldl_cons]
      rw [count_cons_eq]
      by_cases hadm : admitCand u oneHop exclude x = true
      · rw [if_pos hadm, ih]
        by_cases hcx : c = x
        · subst hcx
          rw [if_pos rfl]
          have hv : ((statsBump st c aaW).val c).common = (st.val c).common + 1 := by
            simp [statsBump, Function.update_same]
          rw [hv, if_pos hadm, if_pos hadm]
          omega
        · have hv : ((statsBump st x aaW).val c).common = (st.val c).common := by
            simp [statsBump, Function.update_noteq hcx]
          rw [hv, if_neg hcx]
          by_cases hac : admitCand u oneHop exclude c = true <;> simp [hac]
      · rw [if_neg hadm, ih]
        by_cases hcx : c = x
        · subst hcx
          rw [if_pos rfl]
          simp [hadm]
        · rw [if_neg hcx]
          by_cases hac : admitCand u oneHop exclude c = true <;> simp [hac]

theorem bump_fold_aa_nonneg (u : UserId) (oneHop exclude : Finset UserId)
    {aaW : ℚ} (haa : 0 ≤ aaW) :
    ∀ (ns : List UserId) (st : StatsMap) (c : UserId), 0 ≤ (st.val c).aa →
      0 ≤ (((ns.foldl (fun acc x => if admitCand u oneHop exclude x
          then statsBump acc x aaW else acc) st).val c).aa) := by
  intro ns
  induction ns with
  | nil => intro st c h; exact h
  | cons x rest ih =>
      intro st c h
      simp only [List.foldl_cons]
      by_cases hadm : admitCand u oneHop exclude x = true
      · rw [if_pos hadm]
        refine ih (statsBump st x aaW) c ?_
        by_cases hcx : c = x
        · subst hcx
          have hv : ((statsBump st c aaW).val c).aa = (st.val c).aa + aaW := by
            simp [statsBump, Function.update_same]
          rw [hv]
          exact add_nonneg h haa
        · have hv : ((statsBump st x aaW).val c).aa = (st.val c).aa := by
            simp [statsBump, Function.update_noteq hcx]
          rw [hv]
          exact h
      · rw [if_neg hadm]
        exact ih st c h

theorem logQ_pos {x : ℚ} (hx : 1 < x) : 0 < logQ x := by
  rw [logQ]
  have h0 : (0 : ℚ) < x := lt_trans one_pos hx
  exact div_pos (by linarith) h0

theorem aaWeightOf_nonneg (gv : GraphListing) (n : UserId) :
    0 ≤ aaWeightOf gv n := by
  rw [aaWeightOf]
  by_cases hdeg : 0 < (gv.followingL n).length + (gv.followersL n).length
  · rw [if_pos hdeg]
    have hcast : (1 : ℚ) ≤ ((gv.followingL n).length + (gv.followersL n).length : ℚ) := by
      exact_mod_cast hdeg
    have heps : (0 : ℚ) < eps9 := by norm_num [eps9]
    have hx : (1 : ℚ) <
        (1 + ((gv.followingL n).length + (gv.followersL n).length : Nat) : ℚ) + eps9 := by
      push_cast
      linarith
    exact le_of_lt (one_div_pos.2 (logQ_pos hx))
  · rw [if_neg hdeg]

theorem expandOne_common (cfg : PYMKConfig) (gv : GraphListing) (u : UserId)
    (oneHop exclude : Finset UserId) (st : StatsMap) (n c : UserId) :
    (((expandOne cfg gv u oneHop exclude st n).val c).common) =
      (st.val c).common +
        (if admitCand u oneHop exclude c = true
         then (truncNeighbors cfg (gv.followingL n)).count c else 0) :=
  bump_fold_common u oneHop exclude (aaWeightOf gv n)
    (truncNeighbors cfg (gv.followingL n)) st c

theorem expand_fold_common (cfg : PYMKConfig) (gv : GraphListing) (u : UserId)
    (oneHop exclude : Finset UserId) :
    ∀ (nlist : List UserId) (st : StatsMap) (c : UserId),
      (((nlist.foldl (expandOne cfg gv u oneHop exclude) st).val c).common) =
        (st.val c).common +
          (if admitCand u oneHop exclude c = true
           then (nlist.map (fun n =>
             (truncNeighbors cfg (gv.followingL n)).count c)).sum
           else 0) := by
  intro nlist
  induction nlist with
  | nil =>
      intro st c
      by_cases hac : admitCand u oneHop exclude c = true <;> simp [hac]
  | cons n rest ih =>
      intro st c
      simp only [List.foldl_cons, List.map_cons, List.sum_cons]
      rw [ih, expandOne_common]
      by_cases hac : admitCand u oneHop exclude c = true
      · rw [if_pos hac, if_pos hac, if_pos hac]
        omega
      · rw [if_neg hac, if_neg hac, if_neg hac]

theorem count_of_nodup (c : UserId) {l : List UserId} (h : l.Nodup) :
    l.count c = if c ∈ l then 1 else 0 := by
  by_cases hm : c ∈ l
  · rw [if_pos hm]
    exact List.count_eq_one_of_mem h hm
  · rw [if_neg hm]
    exact List.count_eq_zero_of_not_mem hm

theorem sum_count_eq_countP (cfg : PYMKConfig) (gv : GraphListing)
    (hwf : ∀ m, (gv.followingL m).Nodup) (c : UserId) :
    ∀ nlist : List UserId,
      (nlist.map (fun n => (truncNeighbors cfg (gv.followingL n)).count c)).sum =
        nlist.countP (fun n => decide (c ∈ truncNeighbors cfg (gv.followingL n))) := by
  intro nlist
  induction nlist with
  | nil => simp
  | cons n rest ih =>
      simp only [List.map_cons, List.sum_cons, List.countP_cons]
      rw [ih]
      have hnd : (truncNeighbors cfg (gv.followingL n)).Nodup := by
        rw [truncNeighbors]
        split
        · exact (hwf n).sublist (List.take_sublist _ _)
        · exact hwf n
      rw [count_of_nodup c hnd]
      by_cases hm : c ∈ truncNeighbors cfg (gv.followingL n) <;> simp [hm, Nat.add_comm]

/-- Full characterization of the common counter: for a well-formed
listing, an admitted candidate is counted once per first-hop neighbor in
the following-side list whose (truncated) following list contains it,
plus once per first-hop neighbor in the followers-side list likewise.  A
mutual neighbor therefore contributes twice. -/
theorem expandAll_common (cfg : PYMKConfig) (gv : GraphListing) (u : UserId)
    (oneHop exclude : Finset UserId) (hwf : ∀ m, (gv.followingL m).Nodup)
    (c : UserId) (hadm : admitCand u oneHop exclude c = true) :
    (((expandAll cfg gv u oneHop exclude).val c).common) =
      (gv.followingL u).countP
        (fun n => decide (c ∈ truncNeighbors cfg (gv.followingL n))) +
      (gv.followersL u).countP
        (fun n => decide (c ∈ truncNeighbors cfg (gv.followingL n))) := by
  rw [expandAll, expand_fold_common, expand_fold_common]
  rw [if_pos hadm, if_pos hadm]
  rw [sum_count_eq_countP cfg gv hwf c, sum_count_eq_countP cfg gv hwf c]
  show (0 + _) + _ = _
  omega

theorem expandAll_aa_nonneg (cfg : PYMKConfig) (gv : GraphListing) (u : UserId)
    (oneHop exclude : Finset UserId) (c : UserId) :
    0 ≤ (((expandAll cfg gv u oneHop exclude).val c).aa) := by
  rw [expandAll]
  have base : ∀ (nlist : List UserId) (st : StatsMap),
      (∀ x, 0 ≤ (st.val x).aa) →
      ∀ x, 0 ≤ (((nlist.foldl (expandOne cfg gv u oneHop exclude) st).val x).aa) := by
    intro nlist
    induction nlist with
    | nil => intro st h x; exact h x
    | cons n rest ih =>
        intro st h x
        simp only [List.foldl_cons]
        refine ih (expandOne cfg gv u oneHop exclude st n) ?_ x
        intro y
        exact bump_fold_aa_nonneg u oneHop exclude (aaWeightOf_nonneg gv n)
          (truncNeighbors cfg (gv.followingL n)) st y (h y)
  refine base (gv.followersL u) _ ?_ c
  refine base (gv.followingL u) emptyStats ?_
  intro y
  exact le_refl 0

/-! Lemmas about the scoring phase. -/

theorem cosine_nonneg (a b : List ℚ) : 0 ≤ cosine a b := by
  simp only [cosine]
  split
  · exact le_refl 0
  · split
    · exact le_refl 0
    · split
      · exact le_refl 0
      · exact not_lt.1 (by assumption)

theorem cosine_degenerate (a b : List ℚ)
    (h : a.length = 0 ∨ a.length ≠ b.length) : cosine a b = 0 := by
  rw [cosine, if_pos h]

theorem eps9_pos : (0 : ℚ) < eps9 := by norm_num [eps9]

theorem rawScored_mem {gv : GraphListing} {emb : UserId → Option (List ℚ)}
    {u : UserId} {st : StatsMap} {z : scored}
    (hz : z ∈ rawScored gv emb u st) :
    z.id ∈ st.keys ∧ z.common = (st.val z.id).common ∧
    z.aa = (st.val z.id).aa ∧ 0 ≤ z.jaccard ∧ 0 ≤ z.cos := by
  obtain ⟨id, hid, heq⟩ := List.mem_map.1 hz
  subst heq
  refine ⟨hid, rfl, rfl, ?_, ?_⟩
  · dsimp only
    split
    · refine div_nonneg (by positivity) ?_
      have := eps9_pos
      positivity
    · exact le_refl 0
  · dsimp only
    cases emb u with
    | none => exact le_refl 0
    | some va =>
        cases emb id with
        | none => exact le_refl 0
        | some vb => exact cosine_nonneg va vb

theorem rawScored_ids {gv : GraphListing} {emb : UserId → Option (List ℚ)}
    {u : UserId} {st : StatsMap} {z : scored}
    (hz : z ∈ rawScored gv emb u st) : z.id ∈ st.keys :=
  (rawScored_mem hz).1

theorem applyScores_mem {cfg : PYMKConfig} {l : List scored} {y : scored}
    (hy : y ∈ applyScores cfg l) :
    ∃ z, z ∈ l ∧ y.id = z.id ∧ y.common = z.common ∧ y.jaccard = z.jaccard ∧
      y.aa = z.aa ∧ y.cos = z.cos ∧
      y.score = cfg.wCommon * normalize (z.common : ℚ) ((maxCommonOf l : Nat) : ℚ) +
        cfg.wJaccard * normalize z.jaccard (maxQOf (fun s => s.jaccard) l) +
        cfg.wAA * normalize z.aa (maxQOf (fun s => s.aa) l) +
        cfg.wCosine * normalize z.cos (maxQOf (fun s => s.cos) l) := by
  obtain ⟨z, hz, heq⟩ := List.mem_map.1 hy
  subst heq
  exact ⟨z, hz, rfl, rfl, rfl, rfl, rfl, rfl⟩

theorem foldl_max_init_le {α : Type} [LinearOrder α] (f : scored → α) :
    ∀ (l : List scored) (a : α), a ≤ l.foldl (fun m s => max m (f s)) a := by
  intro l
  induction l with
  | nil => intro a; exact le_refl a
  | cons x rest ih =>
      intro a
      exact le_trans (le_max_left a (f x)) (ih (max a (f x)))

theorem foldl_max_mem_le {α : Type} [LinearOrder α] (f : scored → α) :
    ∀ (l : List scored) (a : α) (s : scored), s ∈ l →
      f s ≤ l.foldl (fun m s => max m (f s)) a := by
  intro l
  induction l with
  | nil => intro a s hs; exact absurd hs (List.not_mem_nil s)
  | cons x rest ih =>
      intro a s hs
      rcases List.mem_cons.1 hs with h | h
      · subst h
        exact le_trans (le_max_right a (f s)) (foldl_max_init_le f rest _)
      · exact ih (max a (f x)) s h

theorem le_maxCommonOf {l : List scored} {s : scored} (hs : s ∈ l) :
    s.common ≤ maxCommonOf l :=
  foldl_max_mem_le (fun s => s.common) l 0 s hs

theorem le_maxQOf (f : scored → ℚ) {l : List scored} {s : scored} (hs : s ∈ l) :
    f s ≤ maxQOf f l :=
  foldl_max_mem_le f l 0 s hs

theorem normalize_unit {x mx : ℚ} (hx0 : 0 ≤ x) (hxm : x ≤ mx) :
    0 ≤ normalize x mx ∧ normalize x mx ≤ 1 := by
  rw [normalize]
  by_cases hmx : 0 < mx
  · rw [if_pos hmx]
    exact ⟨div_nonneg hx0 (le_of_lt hmx), (div_le_one hmx).2 hxm⟩
  · rw [if_neg hmx]
    exact ⟨le_refl 0, zero_le_one⟩

theorem applyScores_score_bounds {cfg : PYMKConfig} {l : List scored}
    (hW : 0 ≤ cfg.wCommon ∧ 0 ≤ cfg.wJaccard ∧ 0 ≤ cfg.wAA ∧ 0 ≤ cfg.wCosine)
    (hnn : ∀ z ∈ l, 0 ≤ z.jaccard ∧ 0 ≤ z.aa ∧ 0 ≤ z.cos)
    {y : scored} (hy : y ∈ applyScores cfg l) :
    0 ≤ y.score ∧
    y.score ≤ cfg.wCommon + cfg.wJaccard + cfg.wAA + cfg.wCosine := by
  obtain ⟨z, hz, _, _, _, _, _, hscore⟩ := applyScores_mem hy
  obtain ⟨hj0, ha0, hc0⟩ := hnn z hz
  have hcommon : (0 : ℚ) ≤ (z.common : ℚ) := by positivity
  have hcommon_le : (z.common : ℚ) ≤ ((maxCommonOf l : Nat) : ℚ) := by
    exact_mod_cast le_maxCommonOf hz
  have h1 := normalize_unit hcommon hcommon_le
  have h2 := normalize_unit hj0 (le_maxQOf (fun s => s.jaccard) hz)
  have h3 := normalize_unit ha0 (le_maxQOf (fun s => s.aa) hz)
  have h4 := normalize_unit hc0 (le_maxQOf (fun s => s.cos) hz)
  obtain ⟨hw1, hw2, hw3, hw4⟩ := hW
  rw [hscore]
  constructor
  · have t1 : 0 ≤ cfg.wCommon * normalize (z.common : ℚ) ((maxCommonOf l : Nat) : ℚ) :=
      mul_nonneg hw1 h1.1
    have t2 : 0 ≤ cfg.wJaccard * normalize z.jaccard (maxQOf (fun s => s.jaccard) l) :=
      mul_nonneg hw2 h2.1
    have t3 : 0 ≤ cfg.wAA * normalize z.aa (maxQOf (fun s => s.aa) l) :=
      mul_nonneg hw3 h3.1
    have t4 : 0 ≤ cfg.wCosine * normalize z.cos (maxQOf (fun s => s.cos) l) :=
      mul_nonneg hw4 h4.1
    linarith
  · have t1 : cfg.wCommon * normalize (z.common : ℚ) ((maxCommonOf l : Nat) : ℚ) ≤
        cfg.wCommon := by
      calc cfg.wCommon * normalize (z.common : ℚ) ((maxCommonOf l : Nat) : ℚ) ≤
          cfg.wCommon * 1 := mul_le_mul_of_nonneg_left h1.2 hw1
        _ = cfg.wCommon := mul_one _
    have t2 : cfg.wJaccard * normalize z.jaccard (maxQOf (fun s => s.jaccard) l) ≤
        cfg.wJaccard := by
      calc cfg.wJaccard * normalize z.jaccard (maxQOf (fun s => s.jaccard) l) ≤
          cfg.wJaccard * 1 := mul_le_mul_of_nonneg_left h2.2 hw2
        _ = cfg.wJaccard := mul_one _
    have t3 : cfg.wAA * normalize z.aa (maxQOf (fun s => s.aa) l) ≤ cfg.wAA := by
      calc cfg.wAA * normalize z.aa (maxQOf (fun s => s.aa) l) ≤
          cfg.wAA * 1 := mul_le_mul_of_nonneg_left h3.2 hw3
        _ = cfg.wAA := mul_one _
    have t4 : cfg.wCosine * normalize z.cos (maxQOf (fun s => s.cos) l) ≤
        cfg.wCosine := by
      calc cfg.wCosine * normalize z.cos (maxQOf (fun s => s.cos) l) ≤
          cfg.wCosine * 1 := mul_le_mul_of_nonneg_left h4.2 hw4
        _ = cfg.wCosine := mul_one _
    linarith

/-! Lemmas assembling PYMKcompute and ServicePYMK. -/

theorem kNorm_pos (k : Int) : 0 < (if k ≤ 0 then 20 else k.toNat) := by
  split <;> omega

theorem PYMKcompute_mem {cfg : PYMKConfig} {gv : GraphListing}
    {emb : UserId → Option (List ℚ)} {u : UserId} {kN : Nat}
    {exclude : Finset UserId} (hk : 0 < kN) :
    ∀ sug ∈ PYMKcompute cfg gv emb u kN exclude,
      ∃ y, y ∈ applyScores cfg (rawScored gv emb u
          (expandAll cfg gv u
            ((gv.followingL u).toFinset ∪ (gv.followersL u).toFinset) exclude)) ∧
        toSuggestion y = sug := by
  intro sug hsug
  rw [PYMKcompute] at hsug
  by_cases hkeys : (expandAll cfg gv u
      ((gv.followingL u).toFinset ∪ (gv.followersL u).toFinset) exclude).keys = []
  · rw [if_pos hkeys] at hsug
    exact absurd hsug (List.not_mem_nil sug)
  · rw [if_neg hkeys] at hsug
    exact (emitTopK_spec kN hk _).2.2.1 sug hsug

theorem servicePYMK_miss {cfg : PYMKConfig} {st : SvcState} {now : Nat}
    {u : UserId} {k : Int} {exclude : Finset UserId}
    (hmiss : (lruGet st.cache now
      ⟨u, ((if k ≤ 0 then 20 else k.toNat : Nat) : Int), st.gv.epochs u⟩).1 = none) :
    (ServicePYMK cfg st now u k exclude).1 =
      PYMKcompute cfg st.gv st.emb u (if k ≤ 0 then 20 else k.toNat) exclude := by
  rw [ServicePYMK]
  cases hg : lruGet st.cache now
      ⟨u, ((if k ≤ 0 then 20 else k.toNat : Nat) : Int), st.gv.epochs u⟩ with
  | mk o c1 =>
      rw [hg] at hmiss
      simp only at hmiss
      subst hmiss
      rfl

/-- Counterexample to C2 as stated: the cache key carries (user, k,
epoch) but not the exclude set, so a second call with the same key and a
different exclude set is served the previously cached list.  On the
triangle graph, PYMK(1,5,empty) caches [4]; the subsequent
PYMK(1,5,{4}) hits that entry and returns 4, which lies in its exclude
set. -/
theorem C2_counterexample :
    ((ServicePYMK mainCfg (ServicePYMK mainCfg triState 0 1 5 ∅).2 1 1 5
        {4}).1.map Suggestion.userId = [4]) ∧
    (4 : UserId) ∈ ({4} : Finset UserId) :=
  ⟨by decide, by decide⟩

/-- C2 (amended: restricted to calls that compute, i.e. whose cache
probe misses; a hit may have been stored by a call with a different
exclude set): the user ids returned by a computing PYMK call are
disjoint from the caller, the one-hop neighborhood, and the exclude set
of that same call. -/
theorem C2_pymk_exclusions (cfg : PYMKConfig) (gv : GraphListing)
    (emb : UserId → Option (List ℚ)) (cache : LruCache) (now : Nat)
    (u : UserId) (k : Int) (exclude : Finset UserId)
    (hmiss : (lruGet cache now
      ⟨u, ((if k ≤ 0 then 20 else k.toNat : Nat) : Int), gv.epochs u⟩).1 = none) :
    ∀ sug ∈ (ServicePYMK cfg ⟨gv, emb, cache⟩ now u k exclude).1,
      sug.userId ≠ u ∧ sug.userId ∉ gv.followingL u ∧
      sug.userId ∉ gv.followersL u ∧ sug.userId ∉ exclude := by
  intro sug hsug
  rw [servicePYMK_miss hmiss] at hsug
  obtain ⟨y, hy, heq⟩ := PYMKcompute_mem (kNorm_pos k) sug hsug
  obtain ⟨z, hz, hid, _⟩ := applyScores_mem hy
  have hkeys := rawScored_ids hz
  have hadm := expandAll_keys hkeys
  obtain ⟨h1, h2, h3⟩ := admitCand_true hadm
  have hsid : sug.userId = z.id := by
    rw [← heq]
    exact hid
  rw [hsid]
  refine ⟨h1, ?_, ?_, h3⟩
  · intro hmem
    exact h2 (Finset.mem_union_left _ (List.mem_toFinset.2 hmem))
  · intro hmem
    exact h2 (Finset.mem_union_right _ (List.mem_toFinset.2 hmem))

theorem getD_zero_mem {α : Type} [Inhabited α] (l : List α) (h : l ≠ []) :
    l.getD 0 default ∈ l := by
  cases l with
  | nil => exact absurd rfl h
  | cons x t => exact List.mem_cons_self x t

/-- Witness for C2 on the triangle graph with a fresh cache. -/
theorem C2_witness :
    ((ServicePYMK mainCfg triState 0 1 5 ∅).1.getD 0 default).userId ≠ 1 ∧
    ((ServicePYMK mainCfg triState 0 1 5 ∅).1.getD 0 default).userId ∉
      triGL.followingL 1 ∧
    ((ServicePYMK mainCfg triState 0 1 5 ∅).1.getD 0 default).userId ∉
      triGL.followersL 1 ∧
    ((ServicePYMK mainCfg triState 0 1 5 ∅).1.getD 0 default).userId ∉
      (∅ : Finset UserId) := by
  have h := C2_pymk_exclusions mainCfg triGL noEmb
    (newLRU mainCfg.cacheSize mainCfg.cacheTTL) 0 1 5 ∅ (by decide)
  exact h ((ServicePYMK mainCfg triState 0 1 5 ∅).1.getD 0 default)
    (getD_zero_mem _ (by decide))

/-- C3: a computing PYMK call returns at most k suggestions (k
normalized to 20 when non-positive), sorted by non-increasing score, and
no scored candidate left out beats any returned suggestion. -/
theorem C3_topk_selection (cfg : PYMKConfig) (gv : GraphListing)
    (emb : UserId → Option (List ℚ)) (cache : LruCache) (now : Nat)
    (u : UserId) (k : Int) (exclude : Finset UserId)
    (hmiss : (lruGet cache now
      ⟨u, ((if k ≤ 0 then 20 else k.toNat : Nat) : Int), gv.epochs u⟩).1 = none) :
    (ServicePYMK cfg ⟨gv, emb, cache⟩ now u k exclude).1.length ≤
      (if k ≤ 0 then 20 else k.toNat) ∧
    List.Sorted (fun a b : Suggestion => b.score ≤ a.score)
      (ServicePYMK cfg ⟨gv, emb, cache⟩ now u k exclude).1 ∧
    (∀ c ∈ pymkCands cfg gv emb u exclude,
      toSuggestion c ∉ (ServicePYMK cfg ⟨gv, emb, cache⟩ now u k exclude).1 →
      ∀ r ∈ (ServicePYMK cfg ⟨gv, emb, cache⟩ now u k exclude).1,
        c.score ≤ r.score) := by
  rw [servicePYMK_miss hmiss, PYMKcompute]
  by_cases hkeys : (expandAll cfg gv u
      ((gv.followingL u).toFinset ∪ (gv.followersL u).toFinset) exclude).keys = []
  · rw [if_pos hkeys]
    refine ⟨by simp, by simp, ?_⟩
    intro c _ _ r hr
    exact absurd hr (List.not_mem_nil r)
  · rw [if_neg hkeys]
    have h := emitTopK_spec (if k ≤ 0 then 20 else k.toNat) (kNorm_pos k)
      (pymkCands cfg gv emb u exclude)
    exact ⟨h.1, h.2.1, h.2.2.2⟩

/-- Witness for C3 on the triangle graph with a fresh cache. -/
theorem C3_witness :
    (ServicePYMK mainCfg triState 0 1 5 ∅).1.length ≤
      (if (5 : Int) ≤ 0 then 20 else (5 : Int).toNat) ∧
    List.Sorted (fun a b : Suggestion => b.score ≤ a.score)
      (ServicePYMK mainCfg triState 0 1 5 ∅).1 := by
  have h := C3_topk_selection mainCfg triGL noEmb
    (newLRU mainCfg.cacheSize mainCfg.cacheTTL) 0 1 5 ∅ (by decide)
  exact ⟨h.1, h.2.1⟩

/-- C7: with non-negative weights, every candidate of a PYMK computation
has all four normalized feature values inside [0,1]; hence every
returned suggestion has a score inside [0, sum of the four weights] and
a non-negative cosine; and the cosine routine clamps negatives to 0 and
returns 0 on empty or length-mismatched vectors. -/
theorem C7_feature_score_bounds (cfg : PYMKConfig) (gv : GraphListing)
    (emb : UserId → Option (List ℚ)) (u : UserId) (kN : Nat)
    (exclude : Finset UserId) (hk : 0 < kN)
    (hW : 0 ≤ cfg.wCommon ∧ 0 ≤ cfg.wJaccard ∧ 0 ≤ cfg.wAA ∧ 0 ≤ cfg.wCosine) :
    (∀ z ∈ pymkRaw cfg gv emb u exclude,
      (0 ≤ normalize (z.common : ℚ)
          ((maxCommonOf (pymkRaw cfg gv emb u exclude) : Nat) : ℚ) ∧
        normalize (z.common : ℚ)
          ((maxCommonOf (pymkRaw cfg gv emb u exclude) : Nat) : ℚ) ≤ 1) ∧
      (0 ≤ normalize z.jaccard
          (maxQOf (fun s => s.jaccard) (pymkRaw cfg gv emb u exclude)) ∧
        normalize z.jaccard
          (maxQOf (fun s => s.jaccard) (pymkRaw cfg gv emb u exclude)) ≤ 1) ∧
      (0 ≤ normalize z.aa
          (maxQOf (fun s => s.aa) (pymkRaw cfg gv emb u exclude)) ∧
        normalize z.aa
          (maxQOf (fun s => s.aa) (pymkRaw cfg gv emb u exclude)) ≤ 1) ∧
      (0 ≤ normalize z.cos
          (maxQOf (fun s => s.cos) (pymkRaw cfg gv emb u exclude)) ∧
        normalize z.cos
          (maxQOf (fun s => s.cos) (pymkRaw cfg gv emb u exclude)) ≤ 1)) ∧
    (∀ sug ∈ PYMKcompute cfg gv emb u kN exclude,
      0 ≤ sug.score ∧
      sug.score ≤ cfg.wCommon + cfg.wJaccard + cfg.wAA + cfg.wCosine ∧
      0 ≤ sug.whyCosine) ∧
    (∀ a b : List ℚ, 0 ≤ cosine a b) ∧
    (∀ a b : List ℚ, a.length = 0 ∨ a.length ≠ b.length → cosine a b = 0) := by
  have hnn : ∀ z ∈ pymkRaw cfg gv emb u exclude,
      0 ≤ z.jaccard ∧ 0 ≤ z.aa ∧ 0 ≤ z.cos := by
    intro z hz
    obtain ⟨hid, hcom, haa, hj, hc⟩ := rawScored_mem hz
    refine ⟨hj, ?_, hc⟩
    rw [haa]
    exact expandAll_aa_nonneg cfg gv u _ exclude z.id
  refine ⟨?_, ?_, cosine_nonneg, cosine_degenerate⟩
  · intro z hz
    obtain ⟨hj, ha, hc⟩ := hnn z hz
    have hcommon : (0 : ℚ) ≤ (z.common : ℚ) := by positivity
    have hcommon_le : (z.common : ℚ) ≤
        ((maxCommonOf (pymkRaw cfg gv emb u exclude) : Nat) : ℚ) := by
      exact_mod_cast le_maxCommonOf hz
    exact ⟨normalize_unit hcommon hcommon_le,
      normalize_unit hj (le_maxQOf (fun s => s.jaccard) hz),
      normalize_unit ha (le_maxQOf (fun s => s.aa) hz),
      normalize_unit hc (le_maxQOf (fun s => s.cos) hz)⟩
  · intro sug hsug
    obtain ⟨y, hy, heq⟩ := PYMKcompute_mem hk sug hsug
    subst heq
    have hbounds := applyScores_score_bounds hW hnn hy
    obtain ⟨z, hz, _, _, _, _, hcos, _⟩ := applyScores_mem hy
    refine ⟨hbounds.1, hbounds.2, ?_⟩
    show 0 ≤ y.cos
    rw [hcos]
    exact (hnn z hz).2.2

/-- Witness for C7 on the triangle graph. -/
theorem C7_witness :
    0 ≤ ((PYMKcompute mainCfg triGL noEmb 1 5 ∅).getD 0 default).score ∧
    ((PYMKcompute mainCfg triGL noEmb 1 5 ∅).getD 0 default).score ≤
      mainCfg.wCommon + mainCfg.wJaccard + mainCfg.wAA + mainCfg.wCosine ∧
    0 ≤ ((PYMKcompute mainCfg triGL noEmb 1 5 ∅).getD 0 default).whyCosine := by
  have h := C7_feature_score_bounds mainCfg triGL noEmb 1 5 ∅ (by decide)
    ⟨by norm_num [mainCfg], by norm_num [mainCfg], by norm_num [mainCfg],
      by norm_num [mainCfg]⟩
  exact h.2.1 ((PYMKcompute mainCfg triGL noEmb 1 5 ∅).getD 0 default)
    (getD_zero_mem _ (by decide))

/-- Counterexample to C9 as stated: with the mutual pair 1 and 2 and the
edge 2 to 4, candidate 4 is reached only through the single intermediary
2, yet its common counter is 2, because 2 is expanded once as a followee
and once as a follower. -/
theorem C9_counterexample :
    (PYMKcompute mainCfg mutGL noEmb 1 5 ∅).map
      (fun s => (s.userId, s.whyCommonNeighbors)) = [(4, 2)] ∧
    distinctIntermediaries mainCfg mutGL 1 4 = 1 ∧ (2 : Nat) ≠ 1 :=
  ⟨by decide, by decide, by decide⟩

/-- C9 (amended: the counter adds one incidence per side, so a neighbor
that is both followed and follower counts twice): each returned
common_neighbors value equals the number of first-hop neighbors in
following(u) whose truncated following list contains the candidate, plus
the number of first-hop neighbors in followers(u) likewise; and the
triangle scenario returns exactly user 4 with common_neighbors 2. -/
theorem C9_common_neighbor_counter (cfg : PYMKConfig) (gv : GraphListing)
    (emb : UserId → Option (List ℚ)) (u : UserId) (kN : Nat)
    (exclude : Finset UserId) (hk : 0 < kN)
    (hwf : ∀ m, (gv.followingL m).Nodup) :
    (∀ sug ∈ PYMKcompute cfg gv emb u kN exclude,
      sug.whyCommonNeighbors =
        (gv.followingL u).countP
          (fun n => decide (sug.userId ∈ truncNeighbors cfg (gv.followingL n))) +
        (gv.followersL u).countP
          (fun n => decide (sug.userId ∈ truncNeighbors cfg (gv.followingL n)))) ∧
    (PYMKcompute mainCfg triGL noEmb 1 5 ∅).map
      (fun s => (s.userId, s.whyCommonNeighbors)) = [(4, 2)] := by
  constructor
  · intro sug hsug
    obtain ⟨y, hy, heq⟩ := PYMKcompute_mem hk sug hsug
    obtain ⟨z, hz, hid, hcom, _⟩ := applyScores_mem hy
    obtain ⟨hkeys, hzcom, _⟩ := rawScored_mem hz
    have hadm := expandAll_keys hkeys
    have hchar := expandAll_common cfg gv u _ exclude hwf z.id hadm
    have hsid : sug.userId = z.id := by
      rw [← heq]
      exact hid
    have hscom : sug.whyCommonNeighbors = z.common := by
      rw [← heq]
      exact hcom
    rw [hsid, hscom, hzcom, hchar]
  · decide

/-- Witness for C9 on the triangle graph. -/
theorem C9_witness :
    ((PYMKcompute mainCfg triGL noEmb 1 5 ∅).getD 0 default).whyCommonNeighbors =
      (triGL.followingL 1).countP
        (fun n => decide (((PYMKcompute mainCfg triGL noEmb 1 5 ∅).getD 0
          default).userId ∈ truncNeighbors mainCfg (triGL.followingL n))) +
      (triGL.followersL 1).countP
        (fun n => decide (((PYMKcompute mainCfg triGL noEmb 1 5 ∅).getD 0
          default).userId ∈ truncNeighbors mainCfg (triGL.followingL n))) := by
  have hwf : ∀ m, (triGL.followingL m).Nodup := by
    intro m
    show (if m = 1 then [2, 3] else if m = 2 then [4]
          else if m = 3 then [4] else []).Nodup
    split_ifs <;> decide
  have h := C9_common_neighbor_counter mainCfg triGL noEmb 1 5 ∅ (by decide) hwf
  exact h.1 ((PYMKcompute mainCfg triGL noEmb 1 5 ∅).getD 0 default)
    (getD_zero_mem _ (by decide))

/-- C10: PYMK never mutates the graph or the embedding store; the state
it returns differs from its input only in the recommendation cache, so
every adjacency, degree, epoch and embedding read yields the same value
before and after the call. -/
theorem C10_pymk_frame (cfg : PYMKConfig) (st : SvcState) (now : Nat)
    (u : UserId) (k : Int) (exclude : Finset UserId) :
    (ServicePYMK cfg st now u k exclude).2.gv = st.gv ∧
    (ServicePYMK cfg st now u k exclude).2.emb = st.emb ∧
    ∀ w, (ServicePYMK cfg st now u k exclude).2.gv.followingL w =
        st.gv.followingL w ∧
      (ServicePYMK cfg st now u k exclude).2.gv.followersL w =
        st.gv.followersL w ∧
      (ServicePYMK cfg st now u k exclude).2.gv.epochs w = st.gv.epochs w ∧
      (ServicePYMK cfg st now u k exclude).2.emb w = st.emb w := by
  rw [ServicePYMK]
  cases hg : lruGet st.cache now
      ⟨u, ((if k ≤ 0 then 20 else k.toNat : Nat) : Int), st.gv.epochs u⟩ with
  | mk o c1 =>
      cases o with
      | none => exact ⟨rfl, rfl, fun w => ⟨rfl, rfl, rfl, rfl⟩⟩
      | some got => exact ⟨rfl, rfl, fun w => ⟨rfl, rfl, rfl, rfl⟩⟩

/-- Witness for C8 at a concrete cache. -/
theorem C8_witness :
    ((lruGet (newLRU 2 10) 0 (CacheKey.mk 1 5 0)).1.isSome = true ↔
      (0 < (newLRU 2 10).capacity ∧
        ∃ ent, lookupEntry (newLRU 2 10).entries (CacheKey.mk 1 5 0) = some ent ∧
          ¬ ent.expiresAt < 0)) ∧
    (lruGet (lruSet (newLRU 2 10) 3 (CacheKey.mk 1 5 0) []) 14 (CacheKey.mk 1 5 0)).1 =
      none := by
  have h := C8_cache_get_contract (newLRU 2 10) 14 3 (CacheKey.mk 1 5 0) []
  have h0 := C8_cache_get_contract (newLRU 2 10) 0 3 (CacheKey.mk 1 5 0) []
  exact ⟨h0.1, h.2.2.1 (by decide)⟩

end SG
